import Mathlib

/-!
# Verification of the go-ethrelay proof-construction pipeline

A shallow embedding of `testimonium/client.go` (the core of the
pantos-io/go-ethrelay relay client) together with proofs about its
header codec, event-replay locator, Merkle proof builders, dispute
support, transaction orchestrator and epoch-data submission.

Bytes are modelled as `Nat` (values `< 256` wherever the code produces
them); byte strings are `List Nat`.  External collaborators
(the go-ethereum `rlp` and `trie` packages, Keccak-256, the ethash
dataset library, the chain RPC interface) are embedded from their
documented semantics, since their sources are not part of this
repository.
-/

namespace Ethrelay

/-! ## Big-endian byte arithmetic

`beBytes` is the minimal big-endian representation of an unsigned
integer used by the RLP integer encoding (`big.Int` / `uint` values in
go-ethereum's `rlp` package): the empty string for `0`, and no leading
zero byte otherwise.  `beNat` is its inverse. -/

/-- Digit extractor behind `beBytes`; the fuel dominates the number of
base-256 digits so the recursion is structural. -/
def beBytesAux : Nat → Nat → List Nat
  | 0, _ => []
  | fuel + 1, n => if n = 0 then [] else beBytesAux fuel (n / 256) ++ [n % 256]

/-- Minimal big-endian byte string of a natural number (empty for 0). -/
def beBytes (n : Nat) : List Nat :=
  beBytesAux (n + 1) n

/-- Big-endian value of a byte string. -/
def beNat (bs : List Nat) : Nat :=
  bs.foldl (fun acc b => acc * 256 + b) 0

theorem beBytesAux_fuel : ∀ (n f1 f2 : Nat), n < f1 → n < f2 →
    beBytesAux f1 n = beBytesAux f2 n := by
  intro n
  induction n using Nat.strong_induction_on with
  | _ n ih =>
    intro f1 f2 h1 h2
    obtain ⟨g1, rfl⟩ : ∃ g1, f1 = g1 + 1 := ⟨f1 - 1, by omega⟩
    obtain ⟨g2, rfl⟩ : ∃ g2, f2 = g2 + 1 := ⟨f2 - 1, by omega⟩
    rw [beBytesAux, beBytesAux]
    by_cases h : n = 0
    · rw [if_pos h, if_pos h]
    · rw [if_neg h, if_neg h,
        ih (n / 256) (Nat.div_lt_self (Nat.pos_of_ne_zero h) (by omega)) g1 g2
          (by have := Nat.div_lt_self (Nat.pos_of_ne_zero h) (show 1 < 256 by omega); omega)
          (by have := Nat.div_lt_self (Nat.pos_of_ne_zero h) (show 1 < 256 by omega); omega)]

/-- The defining unfolding of `beBytes`. -/
theorem beBytes_unfold (n : Nat) :
    beBytes n = if n = 0 then [] else beBytes (n / 256) ++ [n % 256] := by
  rw [beBytes, beBytesAux]
  by_cases h : n = 0
  · rw [if_pos h, if_pos h]
  · rw [if_neg h, if_neg h, beBytes,
      beBytesAux_fuel (n / 256) n (n / 256 + 1)
        (Nat.div_lt_self (Nat.pos_of_ne_zero h) (by omega)) (by omega)]

theorem beBytes_zero : beBytes 0 = [] := by
  rw [beBytes_unfold]
  simp

theorem beNat_append_singleton (bs : List Nat) (b : Nat) :
    beNat (bs ++ [b]) = beNat bs * 256 + b := by
  simp [beNat, List.foldl_append]

theorem beNat_beBytes (n : Nat) : beNat (beBytes n) = n := by
  induction n using Nat.strong_induction_on with
  | _ n ih =>
    rw [beBytes_unfold]
    by_cases h : n = 0
    · simp [h, beNat]
    · simp only [h, if_false]
      rw [beNat_append_singleton, ih (n / 256) (Nat.div_lt_self (Nat.pos_of_ne_zero h) (by omega))]
      omega

theorem beBytes_ne_nil {n : Nat} (h : n ≠ 0) : beBytes n ≠ [] := by
  rw [beBytes_unfold]
  simp [h]

theorem beBytes_injective {a b : Nat} (h : beBytes a = beBytes b) : a = b := by
  have := beNat_beBytes a
  rw [h, beNat_beBytes] at this
  omega

/-- The length of `beBytes n` is at most `k` when `n < 256 ^ k`. -/
theorem beBytes_length_le {n k : Nat} (h : n < 256 ^ k) : (beBytes n).length ≤ k := by
  induction k generalizing n with
  | zero =>
    have : n = 0 := by simpa using h
    simp [this, beBytes_zero]
  | succ k ih =>
    rw [beBytes_unfold]
    by_cases h0 : n = 0
    · simp [h0]
    · simp only [h0, if_false, List.length_append, List.length_cons, List.length_nil]
      have : n / 256 < 256 ^ k := by
        rw [Nat.div_lt_iff_lt_mul (by omega)]
        calc n < 256 ^ (k + 1) := h
        _ = 256 ^ k * 256 := by ring
      have := ih this
      omega

/-- The leading byte of the minimal big-endian form of a nonzero number
is nonzero. -/
theorem beBytes_head_ne_zero {n : Nat} (h : n ≠ 0) : (beBytes n).head! ≠ 0 := by
  induction n using Nat.strong_induction_on with
  | _ n ih =>
    rw [beBytes_unfold]
    simp only [h, if_false]
    by_cases h0 : n / 256 = 0
    · rw [h0, beBytes_zero]
      simp only [List.nil_append, List.head!]
      omega
    · have hne := beBytes_ne_nil h0
      have := ih (n / 256) (Nat.div_lt_self (Nat.pos_of_ne_zero h) (by omega)) h0
      rcases List.exists_cons_of_ne_nil hne with ⟨x, xs, hx⟩
      rw [hx]
      rw [hx] at this
      simpa using this

/-! ## RLP encoding

The recursive-length-prefix encoding of the go-ethereum `rlp` package,
as used by `encodeHeaderToRLP`, `encodeHeaderWithoutNonceToRLP`,
`decodeHeaderFromRLP` and the trie key construction in
`GenerateMerkleProofForTx` / `GenerateMerkleProofForReceipt`.
An unsigned integer is encoded as its minimal big-endian byte string. -/

/-- An RLP item: a byte string or a list of items. -/
inductive RLPItem where
  | bytes (bs : List Nat) : RLPItem
  | list (items : List RLPItem) : RLPItem

/-- Length prefix of a byte-string (`offset = 128`) or list
(`offset = 192`) payload. -/
def encodeLength (offset : Nat) (len : Nat) : List Nat :=
  if len ≤ 55 then [offset + len]
  else (offset + 55 + (beBytes len).length) :: beBytes len

mutual

/-- RLP-encode one item. -/
def rlpEncode : RLPItem → List Nat
  | .bytes bs =>
      if bs.length = 1 ∧ bs.head! < 128 then bs
      else encodeLength 128 bs.length ++ bs
  | .list items =>
      let payload := rlpEncodeList items
      encodeLength 192 payload.length ++ payload

/-- Concatenated RLP encodings of a sequence of items (a list payload). -/
def rlpEncodeList : List RLPItem → List Nat
  | [] => []
  | it :: rest => rlpEncode it ++ rlpEncodeList rest

end

mutual

/-- Encodings the parser below can reproduce: every byte-string and
list-payload length fits in eight length bytes (always true of data a
Go program can materialise). -/
def itemOk : RLPItem → Bool
  | .bytes bs => bs.length < 2 ^ 64
  | .list items => decide ((rlpEncodeList items).length < 2 ^ 64) && itemsOk items

/-- `itemOk` for every item of a sequence. -/
def itemsOk : List RLPItem → Bool
  | [] => true
  | it :: rest => itemOk it && itemsOk rest

end

/-- Parse a byte string as a sequence of adjacent items, given a parser
`p` for one item; the fuel bounds the number of items. -/
def parseSeq (p : List Nat → Option (RLPItem × List Nat)) :
    Nat → List Nat → Option (List RLPItem)
  | _, [] => some []
  | 0, _ :: _ => none
  | fuel + 1, b :: rest =>
    match p (b :: rest) with
    | some (it, rest1) =>
      match parseSeq p fuel rest1 with
      | some items => some (it :: items)
      | none => none
    | none => none

/-- RLP parser (inverse of `rlpEncode`), with explicit fuel;
returns the parsed item together with the unconsumed remainder.
Mirrors the canonicality checks of go-ethereum's `rlp` decoder
(minimal integer form, no short payload in long form). -/
def parseRLP : Nat → List Nat → Option (RLPItem × List Nat)
  | 0, _ => none
  | _ + 1, [] => none
  | fuel + 1, b :: rest =>
    if b < 128 then some (.bytes [b], rest)
    else if b < 184 then
      let n := b - 128
      if rest.length < n then none
      else if n = 1 ∧ rest.head! < 128 then none
      else some (.bytes (rest.take n), rest.drop n)
    else if b < 192 then
      let ll := b - 183
      if rest.length < ll then none
      else
        let lenBytes := rest.take ll
        let n := beNat lenBytes
        let rest1 := rest.drop ll
        if lenBytes.head! = 0 then none
        else if n ≤ 55 then none
        else if rest1.length < n then none
        else some (.bytes (rest1.take n), rest1.drop n)
    else if b < 248 then
      let n := b - 192
      if rest.length < n then none
      else
        match parseSeq (parseRLP fuel) fuel (rest.take n) with
        | some items => some (.list items, rest.drop n)
        | none => none
    else
      let ll := b - 247
      if rest.length < ll then none
      else
        let lenBytes := rest.take ll
        let n := beNat lenBytes
        let rest1 := rest.drop ll
        if lenBytes.head! = 0 then none
        else if n ≤ 55 then none
        else if rest1.length < n then none
        else
          match parseSeq (parseRLP fuel) fuel (rest1.take n) with
          | some items => some (.list items, rest1.drop n)
          | none => none

theorem encodeLength_ne_nil (offset len : Nat) : encodeLength offset len ≠ [] := by
  unfold encodeLength
  split <;> simp

theorem rlpEncode_length_pos (it : RLPItem) : 1 ≤ (rlpEncode it).length := by
  match it with
  | .bytes bs =>
    rw [rlpEncode]
    split
    · omega
    · rcases List.exists_cons_of_ne_nil (encodeLength_ne_nil 128 bs.length) with ⟨x, xs, hx⟩
      simp [hx]
  | .list items =>
    rw [rlpEncode]
    rcases List.exists_cons_of_ne_nil
      (encodeLength_ne_nil 192 (rlpEncodeList items).length) with ⟨x, xs, hx⟩
    simp [hx]

theorem parseRLP_single (fuel : Nat) (b : Nat) (hb : b < 128) (rest : List Nat) :
    parseRLP (fuel + 1) (b :: rest) = some (.bytes [b], rest) := by
  rw [parseRLP]
  simp [hb]

theorem parseRLP_short_bytes (fuel : Nat) (bs rest : List Nat)
    (hlen : bs.length ≤ 55) (hform : ¬(bs.length = 1 ∧ bs.head! < 128)) :
    parseRLP (fuel + 1) ((128 + bs.length) :: (bs ++ rest)) = some (.bytes bs, rest) := by
  have hlt : ¬ (128 + bs.length < 128) := by omega
  have hlt2 : 128 + bs.length < 184 := by omega
  have hsub : 128 + bs.length - 128 = bs.length := by omega
  have hrlen : ¬ ((bs ++ rest).length < bs.length) := by
    simp only [List.length_append]
    omega
  have hhead : ¬ (bs.length = 1 ∧ (bs ++ rest).head! < 128) := by
    rintro ⟨h1, h2⟩
    apply hform
    refine ⟨h1, ?_⟩
    match bs, h1 with
    | [x], _ => simpa using h2
  rw [parseRLP]
  simp only [if_neg hlt, if_pos hlt2, hsub, if_neg hrlen, if_neg hhead,
    List.take_left, List.drop_left]

theorem parseRLP_long_bytes (fuel : Nat) (bs rest : List Nat)
    (hlen : 56 ≤ bs.length) (hbound : bs.length < 2 ^ 64) :
    parseRLP (fuel + 1)
      ((183 + (beBytes bs.length).length) :: (beBytes bs.length ++ (bs ++ rest))) =
      some (.bytes bs, rest) := by
  have hne : bs.length ≠ 0 := by omega
  have hll1 : 1 ≤ (beBytes bs.length).length :=
    List.length_pos.mpr (beBytes_ne_nil hne)
  have hll8 : (beBytes bs.length).length ≤ 8 := by
    apply beBytes_length_le
    calc bs.length < 2 ^ 64 := hbound
    _ = 256 ^ 8 := by norm_num
  have hlt : ¬ (183 + (beBytes bs.length).length < 128) := by omega
  have hlt2 : ¬ (183 + (beBytes bs.length).length < 184) := by omega
  have hlt3 : 183 + (beBytes bs.length).length < 192 := by omega
  have hsub : 183 + (beBytes bs.length).length - 183 = (beBytes bs.length).length := by omega
  have hrlen : ¬ ((beBytes bs.length ++ (bs ++ rest)).length < (beBytes bs.length).length) := by
    simp only [List.length_append]
    omega
  have hhead : ¬ ((beBytes bs.length).head! = 0) := beBytes_head_ne_zero hne
  have hn : ¬ (beNat (beBytes bs.length) ≤ 55) := by
    rw [beNat_beBytes]
    omega
  have hrlen2 : ¬ ((bs ++ rest).length < beNat (beBytes bs.length)) := by
    rw [beNat_beBytes]
    simp only [List.length_append]
    omega
  rw [parseRLP]
  simp only [if_neg hlt, if_neg hlt2, if_pos hlt3, hsub,
    if_neg hrlen, List.take_left, List.drop_left, if_neg hhead, if_neg hn, if_neg hrlen2,
    beNat_beBytes]
  rw [if_neg (by omega), if_neg (by simp only [List.length_append]; omega)]

theorem parseRLP_short_list (fuel : Nat) (items : List RLPItem) (rest : List Nat)
    (hlen : (rlpEncodeList items).length ≤ 55)
    (hparse : parseSeq (parseRLP fuel) fuel (rlpEncodeList items) = some items) :
    parseRLP (fuel + 1) ((192 + (rlpEncodeList items).length) :: (rlpEncodeList items ++ rest)) =
      some (.list items, rest) := by
  have hlt : ¬ (192 + (rlpEncodeList items).length < 128) := by omega
  have hlt2 : ¬ (192 + (rlpEncodeList items).length < 184) := by omega
  have hlt3 : ¬ (192 + (rlpEncodeList items).length < 192) := by omega
  have hlt4 : 192 + (rlpEncodeList items).length < 248 := by omega
  have hsub : 192 + (rlpEncodeList items).length - 192 = (rlpEncodeList items).length := by omega
  have hrlen : ¬ ((rlpEncodeList items ++ rest).length < (rlpEncodeList items).length) := by
    simp only [List.length_append]
    omega
  rw [parseRLP]
  simp only [if_neg hlt, if_neg hlt2, if_neg hlt3, if_pos hlt4, hsub,
    if_neg hrlen, List.take_left, List.drop_left, hparse]

theorem parseRLP_long_list (fuel : Nat) (items : List RLPItem) (rest : List Nat)
    (hlen : 56 ≤ (rlpEncodeList items).length)
    (hbound : (rlpEncodeList items).length < 2 ^ 64)
    (hparse : parseSeq (parseRLP fuel) fuel (rlpEncodeList items) = some items) :
    parseRLP (fuel + 1)
      ((247 + (beBytes (rlpEncodeList items).length).length) ::
        (beBytes (rlpEncodeList items).length ++ (rlpEncodeList items ++ rest))) =
      some (.list items, rest) := by
  have hne : (rlpEncodeList items).length ≠ 0 := by omega
  have hll1 : 1 ≤ (beBytes (rlpEncodeList items).length).length :=
    List.length_pos.mpr (beBytes_ne_nil hne)
  have hll8 : (beBytes (rlpEncodeList items).length).length ≤ 8 := by
    apply beBytes_length_le
    calc (rlpEncodeList items).length < 2 ^ 64 := hbound
    _ = 256 ^ 8 := by norm_num
  have hlt : ¬ (247 + (beBytes (rlpEncodeList items).length).length < 128) := by omega
  have hlt2 : ¬ (247 + (beBytes (rlpEncodeList items).length).length < 184) := by omega
  have hlt3 : ¬ (247 + (beBytes (rlpEncodeList items).length).length < 192) := by omega
  have hlt4 : ¬ (247 + (beBytes (rlpEncodeList items).length).length < 248) := by omega
  have hsub : 247 + (beBytes (rlpEncodeList items).length).length - 247 =
      (beBytes (rlpEncodeList items).length).length := by omega
  have hrlen : ¬ ((beBytes (rlpEncodeList items).length ++ (rlpEncodeList items ++ rest)).length <
      (beBytes (rlpEncodeList items).length).length) := by
    simp only [List.length_append]
    omega
  have hhead : ¬ ((beBytes (rlpEncodeList items).length).head! = 0) := beBytes_head_ne_zero hne
  have hn : ¬ (beNat (beBytes (rlpEncodeList items).length) ≤ 55) := by
    rw [beNat_beBytes]
    omega
  have hrlen2 : ¬ ((rlpEncodeList items ++ rest).length < beNat (beBytes (rlpEncodeList items).length)) := by
    rw [beNat_beBytes]
    simp only [List.length_append]
    omega
  rw [parseRLP]
  simp only [if_neg hlt, if_neg hlt2, if_neg hlt3, if_neg hlt4, hsub,
    if_neg hrlen, List.take_left, List.drop_left, if_neg hhead, if_neg hn, if_neg hrlen2,
    beNat_beBytes, hparse]
  rw [if_neg (by omega), if_neg (by simp only [List.length_append]; omega)]

theorem length_le_rlpEncodeList (items : List RLPItem) :
    items.length ≤ (rlpEncodeList items).length := by
  induction items with
  | nil => simp [rlpEncodeList]
  | cons it rest ih =>
    rw [rlpEncodeList]
    simp only [List.length_cons, List.length_append]
    have := rlpEncode_length_pos it
    omega

theorem mem_rlpEncode_length_le {it : RLPItem} {items : List RLPItem} (h : it ∈ items) :
    (rlpEncode it).length ≤ (rlpEncodeList items).length := by
  induction items with
  | nil => cases h
  | cons x rest ih =>
    rw [rlpEncodeList]
    simp only [List.length_append]
    rcases List.mem_cons.mp h with h | h
    · subst h
      omega
    · have := ih h
      omega

theorem itemsOk_mem {items : List RLPItem} {it : RLPItem}
    (hok : itemsOk items = true) (h : it ∈ items) : itemOk it = true := by
  induction items with
  | nil => cases h
  | cons x rest ih =>
    rw [itemsOk, Bool.and_eq_true] at hok
    rcases List.mem_cons.mp h with h | h
    · subst h
      exact hok.1
    · exact ih hok.2 h

theorem parseSeq_encodeList (p : List Nat → Option (RLPItem × List Nat))
    (items : List RLPItem)
    (hp : ∀ it ∈ items, ∀ rest, p (rlpEncode it ++ rest) = some (it, rest)) :
    ∀ fuel, items.length ≤ fuel → parseSeq p fuel (rlpEncodeList items) = some items := by
  induction items with
  | nil =>
    intro fuel _
    rw [rlpEncodeList]
    rw [parseSeq]
  | cons it rest ih =>
    intro fuel hf
    have hpos := rlpEncode_length_pos it
    have hne : rlpEncode it ++ rlpEncodeList rest ≠ [] := by
      intro hnil
      have := congrArg List.length hnil
      simp only [List.length_append, List.length_nil] at this
      omega
    rcases List.exists_cons_of_ne_nil hne with ⟨b, bs, hb⟩
    obtain ⟨f, rfl⟩ : ∃ f, fuel = f + 1 := ⟨fuel - 1, by simp at hf; omega⟩
    rw [rlpEncodeList, hb, parseSeq, ← hb,
      hp it (List.mem_cons_self it rest) (rlpEncodeList rest)]
    have hrec := ih (fun it' h' => hp it' (List.mem_cons_of_mem _ h')) f (by simp at hf; omega)
    simp only [hrec]

/-- Round-trip of the RLP codec: parsing an encoding (with enough fuel)
returns the original item and the unconsumed remainder. -/
theorem parseRLP_rlpEncode (fuel : Nat) :
    ∀ it rest, itemOk it = true → (rlpEncode it).length ≤ fuel →
      parseRLP fuel (rlpEncode it ++ rest) = some (it, rest) := by
  induction fuel using Nat.strong_induction_on with
  | _ fuel ih =>
    intro it rest hok hlen
    have hpos := rlpEncode_length_pos it
    obtain ⟨f, rfl⟩ : ∃ f, fuel = f + 1 := ⟨fuel - 1, by omega⟩
    match it with
    | .bytes bs =>
      rw [itemOk] at hok
      have hbound : bs.length < 2 ^ 64 := by simpa using hok
      by_cases hform : bs.length = 1 ∧ bs.head! < 128
      · match bs, hform with
        | [x], hform =>
          rw [rlpEncode, if_pos hform, List.singleton_append]
          exact parseRLP_single f x (by simpa using hform.2) rest
      · rw [rlpEncode, if_neg hform]
        by_cases hshort : bs.length ≤ 55
        · rw [encodeLength, if_pos hshort, List.singleton_append, List.cons_append]
          exact parseRLP_short_bytes f bs rest hshort hform
        · rw [encodeLength, if_neg hshort]
          have h56 : 56 ≤ bs.length := by omega
          rw [List.cons_append, List.cons_append, List.append_assoc]
          have := parseRLP_long_bytes f bs rest h56 hbound
          simpa using this
    | .list items =>
      rw [itemOk, Bool.and_eq_true] at hok
      have hbound : (rlpEncodeList items).length < 2 ^ 64 := by simpa using hok.1
      have hitemsok : itemsOk items = true := hok.2
      have hlen2 : (rlpEncode (.list items)).length = (encodeLength 192 (rlpEncodeList items).length).length + (rlpEncodeList items).length := by
        rw [rlpEncode]
        simp
      have hencpos : 1 ≤ (encodeLength 192 (rlpEncodeList items).length).length := by
        rcases List.exists_cons_of_ne_nil (encodeLength_ne_nil 192 (rlpEncodeList items).length) with ⟨x, xs, hx⟩
        simp [hx]
      have hpay : (rlpEncodeList items).length ≤ f := by omega
      have hseq : parseSeq (parseRLP f) f (rlpEncodeList items) = some items := by
        apply parseSeq_encodeList (parseRLP f) items
        · intro it' hm rest'
          exact ih f (by omega) it' rest' (itemsOk_mem hitemsok hm)
            (le_trans (mem_rlpEncode_length_le hm) hpay)
        · exact le_trans (length_le_rlpEncodeList items) hpay
      rw [rlpEncode]
      by_cases hshort : (rlpEncodeList items).length ≤ 55
      · rw [encodeLength, if_pos hshort, List.singleton_append, List.cons_append]
        exact parseRLP_short_list f items rest hshort hseq
      · rw [encodeLength, if_neg hshort]
        have h56 : 56 ≤ (rlpEncodeList items).length := by omega
        rw [List.cons_append, List.cons_append, List.append_assoc]
        have := parseRLP_long_list f items rest h56 hbound hseq
        simpa using this

/-- go-ethereum `rlp.DecodeBytes`-style entry point: parse a byte string
as a single RLP item consuming the whole input. -/
def rlpDecode (bs : List Nat) : Option RLPItem :=
  match parseRLP bs.length bs with
  | some (it, []) => some it
  | _ => none

theorem rlpDecode_rlpEncode {it : RLPItem} (h : itemOk it = true) :
    rlpDecode (rlpEncode it) = some it := by
  have := parseRLP_rlpEncode (rlpEncode it).length it [] h (le_refl _)
  rw [List.append_nil] at this
  rw [rlpDecode, this]

/-- RLP encoding of an unsigned integer (go-ethereum encodes `uint` and
non-negative `big.Int` values as their minimal big-endian byte string). -/
def rlpNat (n : Nat) : List Nat :=
  rlpEncode (.bytes (beBytes n))

theorem itemOk_beBytes {n : Nat} (h : n < 2 ^ 64) : itemOk (.bytes (beBytes n)) = true := by
  rw [itemOk]
  have : (beBytes n).length ≤ 8 := beBytes_length_le (by calc n < 2 ^ 64 := h
                                                          _ = 256 ^ 8 := by norm_num)
  simp
  omega

/-- `rlpNat` is injective on machine-word-sized integers. -/
theorem rlpNat_inj {a b : Nat} (ha : a < 2 ^ 64) (hb : b < 2 ^ 64)
    (h : rlpNat a = rlpNat b) : a = b := by
  have da := rlpDecode_rlpEncode (itemOk_beBytes ha)
  have db := rlpDecode_rlpEncode (itemOk_beBytes hb)
  simp only [rlpNat] at h
  rw [h, db] at da
  have hbb : beBytes b = beBytes a := by
    injection da with da
    injection da
  exact (beBytes_injective hbb).symm


/-! ## Header codec

Embedding of `encodeHeaderToRLP`, `encodeHeaderWithoutNonceToRLP` and
`decodeHeaderFromRLP` from `testimonium/client.go`.  A go-ethereum
`types.Header` holds fixed-size byte arrays (hashes, coinbase, bloom,
nonce), unbounded non-negative `big.Int` fields (`Difficulty`,
`Number`) and `uint64` fields (`GasLimit`, `GasUsed`, `Time`). -/

structure EthHeader where
  parentHash : List Nat
  uncleHash : List Nat
  coinbase : List Nat
  root : List Nat
  txHash : List Nat
  receiptHash : List Nat
  bloom : List Nat
  difficulty : Nat
  number : Nat
  gasLimit : Nat
  gasUsed : Nat
  time : Nat
  extra : List Nat
  mixDigest : List Nat
  nonce : List Nat
deriving DecidableEq

/-- Well-formedness of a header as go-ethereum's types guarantee it:
fixed array sizes, word-sized `uint64` fields, on-chain-sized `big.Int`
fields, and extra data a process can hold in memory. -/
def validHeader (h : EthHeader) : Bool :=
  h.parentHash.length = 32 && h.uncleHash.length = 32 && h.coinbase.length = 20 &&
  h.root.length = 32 && h.txHash.length = 32 && h.receiptHash.length = 32 &&
  h.bloom.length = 256 && h.mixDigest.length = 32 && h.nonce.length = 8 &&
  decide (h.difficulty < 2 ^ 256) && decide (h.number < 2 ^ 256) &&
  decide (h.gasLimit < 2 ^ 64) && decide (h.gasUsed < 2 ^ 64) &&
  decide (h.time < 2 ^ 64) && decide (h.extra.length < 2 ^ 32)

/-- The ordered 15-field sequence of `encodeHeaderToRLP`:
parentHash, uncleHash, coinbase, root, txHash, receiptHash, bloom,
difficulty, number, gasLimit, gasUsed, time, extra, mixDigest, nonce. -/
def headerItems (h : EthHeader) : List RLPItem :=
  [.bytes h.parentHash, .bytes h.uncleHash, .bytes h.coinbase, .bytes h.root,
   .bytes h.txHash, .bytes h.receiptHash, .bytes h.bloom,
   .bytes (beBytes h.difficulty), .bytes (beBytes h.number),
   .bytes (beBytes h.gasLimit), .bytes (beBytes h.gasUsed), .bytes (beBytes h.time),
   .bytes h.extra, .bytes h.mixDigest, .bytes h.nonce]

/-- The 13-field sequence of `encodeHeaderWithoutNonceToRLP`
(drops mixDigest and nonce). -/
def headerItemsWithoutNonce (h : EthHeader) : List RLPItem :=
  [.bytes h.parentHash, .bytes h.uncleHash, .bytes h.coinbase, .bytes h.root,
   .bytes h.txHash, .bytes h.receiptHash, .bytes h.bloom,
   .bytes (beBytes h.difficulty), .bytes (beBytes h.number),
   .bytes (beBytes h.gasLimit), .bytes (beBytes h.gasUsed), .bytes (beBytes h.time),
   .bytes h.extra]

/-- `encodeHeaderToRLP`: the full 15-field header encoding. -/
def encodeHeaderToRLP (h : EthHeader) : List Nat :=
  rlpEncode (.list (headerItems h))

/-- `encodeHeaderWithoutNonceToRLP`: the 13-field pre-PoW encoding. -/
def encodeHeaderWithoutNonceToRLP (h : EthHeader) : List Nat :=
  rlpEncode (.list (headerItemsWithoutNonce h))

/-- `decodeHeaderFromRLP` (go-ethereum's derived `rlp` decoder for
`types.Header`): the input must be a 15-item list of byte strings with
exact sizes for the fixed-size fields, canonical (minimal big-endian)
integer fields, and word-sized `uint64` fields. -/
def decodeHeaderFromRLP (bs : List Nat) : Option EthHeader :=
  match rlpDecode bs with
  | some (.list [.bytes ph, .bytes uh, .bytes cb, .bytes rt, .bytes th, .bytes rh,
      .bytes bl, .bytes diff, .bytes num, .bytes gl, .bytes gu, .bytes tm,
      .bytes ex, .bytes md, .bytes nn]) =>
    if ph.length = 32 ∧ uh.length = 32 ∧ cb.length = 20 ∧ rt.length = 32 ∧
        th.length = 32 ∧ rh.length = 32 ∧ bl.length = 256 ∧ md.length = 32 ∧
        nn.length = 8 ∧
        (diff = [] ∨ diff.head! ≠ 0) ∧ (num = [] ∨ num.head! ≠ 0) ∧
        (gl = [] ∨ gl.head! ≠ 0) ∧ gl.length ≤ 8 ∧
        (gu = [] ∨ gu.head! ≠ 0) ∧ gu.length ≤ 8 ∧
        (tm = [] ∨ tm.head! ≠ 0) ∧ tm.length ≤ 8 then
      some { parentHash := ph, uncleHash := uh, coinbase := cb, root := rt,
             txHash := th, receiptHash := rh, bloom := bl,
             difficulty := beNat diff, number := beNat num,
             gasLimit := beNat gl, gasUsed := beNat gu, time := beNat tm,
             extra := ex, mixDigest := md, nonce := nn }
    else none
  | _ => none

theorem rlpEncode_bytes_length_le {bs : List Nat} (h : bs.length < 2 ^ 64) :
    (rlpEncode (.bytes bs)).length ≤ 9 + bs.length := by
  rw [rlpEncode]
  split
  · omega
  · rw [encodeLength]
    split
    · simp only [List.cons_append, List.length_cons, List.nil_append, List.length_append,
        List.singleton_append]
      omega
    · have : (beBytes bs.length).length ≤ 8 := beBytes_length_le
        (by calc bs.length < 2 ^ 64 := h
                 _ = 256 ^ 8 := by norm_num)
      simp only [List.cons_append, List.length_cons, List.length_append]
      omega

theorem beBytes_length_le_32 {n : Nat} (h : n < 2 ^ 256) : (beBytes n).length ≤ 32 :=
  beBytes_length_le (by calc n < 2 ^ 256 := h
                             _ = 256 ^ 32 := by norm_num)

theorem itemOk_headerItems {h : EthHeader} (hv : validHeader h = true) :
    itemOk (.list (headerItems h)) = true := by
  simp only [validHeader, Bool.and_eq_true, decide_eq_true_eq] at hv
  obtain ⟨⟨⟨⟨⟨⟨⟨⟨⟨⟨⟨⟨⟨⟨hph, huh⟩, hcb⟩, hrt⟩, hth⟩, hrh⟩, hbl⟩, hmd⟩, hnn⟩, hdiff⟩, hnum⟩,
    hgl⟩, hgu⟩, htm⟩, hex⟩ := hv
  have bdiff := beBytes_length_le_32 hdiff
  have bnum := beBytes_length_le_32 hnum
  have bgl : (beBytes h.gasLimit).length ≤ 8 := beBytes_length_le
    (by calc h.gasLimit < 2 ^ 64 := hgl
             _ = 256 ^ 8 := by norm_num)
  have bgu : (beBytes h.gasUsed).length ≤ 8 := beBytes_length_le
    (by calc h.gasUsed < 2 ^ 64 := hgu
             _ = 256 ^ 8 := by norm_num)
  have btm : (beBytes h.time).length ≤ 8 := beBytes_length_le
    (by calc h.time < 2 ^ 64 := htm
             _ = 256 ^ 8 := by norm_num)
  rw [itemOk, Bool.and_eq_true]
  constructor
  · rw [decide_eq_true_eq]
    rw [headerItems]
    rw [rlpEncodeList, rlpEncodeList, rlpEncodeList, rlpEncodeList, rlpEncodeList,
      rlpEncodeList, rlpEncodeList, rlpEncodeList, rlpEncodeList, rlpEncodeList,
      rlpEncodeList, rlpEncodeList, rlpEncodeList, rlpEncodeList, rlpEncodeList,
      rlpEncodeList]
    simp only [List.length_append, List.length_nil]
    have e1 := @rlpEncode_bytes_length_le (h.parentHash) (by omega)
    have e2 := @rlpEncode_bytes_length_le (h.uncleHash) (by omega)
    have e3 := @rlpEncode_bytes_length_le (h.coinbase) (by omega)
    have e4 := @rlpEncode_bytes_length_le (h.root) (by omega)
    have e5 := @rlpEncode_bytes_length_le (h.txHash) (by omega)
    have e6 := @rlpEncode_bytes_length_le (h.receiptHash) (by omega)
    have e7 := @rlpEncode_bytes_length_le (h.bloom) (by omega)
    have e8 := @rlpEncode_bytes_length_le (beBytes h.difficulty) (by omega)
    have e9 := @rlpEncode_bytes_length_le (beBytes h.number) (by omega)
    have e10 := @rlpEncode_bytes_length_le (beBytes h.gasLimit) (by omega)
    have e11 := @rlpEncode_bytes_length_le (beBytes h.gasUsed) (by omega)
    have e12 := @rlpEncode_bytes_length_le (beBytes h.time) (by omega)
    have e13 := @rlpEncode_bytes_length_le (h.extra) (by omega)
    have e14 := @rlpEncode_bytes_length_le (h.mixDigest) (by omega)
    have e15 := @rlpEncode_bytes_length_le (h.nonce) (by omega)
    omega
  · rw [headerItems]
    rw [itemsOk, itemsOk, itemsOk, itemsOk, itemsOk, itemsOk, itemsOk, itemsOk,
      itemsOk, itemsOk, itemsOk, itemsOk, itemsOk, itemsOk, itemsOk, itemsOk]
    simp only [itemOk, Bool.and_eq_true, decide_eq_true_eq, Bool.and_true]
    refine ⟨?_, ?_, ?_, ?_, ?_, ?_, ?_, ?_, ?_, ?_, ?_, ?_, ?_, ?_, ?_⟩ <;> omega

theorem beBytes_canonical (n : Nat) : beBytes n = [] ∨ (beBytes n).head! ≠ 0 := by
  by_cases h : n = 0
  · exact Or.inl (by rw [h, beBytes_zero])
  · exact Or.inr (beBytes_head_ne_zero h)

/-- Header codec round-trip (shared helper): decoding the full
encoding of a valid header recovers the header. -/
theorem decodeHeader_encodeHeader (h : EthHeader) (hv : validHeader h = true) :
    decodeHeaderFromRLP (encodeHeaderToRLP h) = some h := by
  have hok := itemOk_headerItems hv
  have hdec := rlpDecode_rlpEncode hok
  simp only [validHeader, Bool.and_eq_true, decide_eq_true_eq] at hv
  obtain ⟨⟨⟨⟨⟨⟨⟨⟨⟨⟨⟨⟨⟨⟨hph, huh⟩, hcb⟩, hrt⟩, hth⟩, hrh⟩, hbl⟩, hmd⟩, hnn⟩, hdiff⟩, hnum⟩,
    hgl⟩, hgu⟩, htm⟩, hex⟩ := hv
  have bgl : (beBytes h.gasLimit).length ≤ 8 := beBytes_length_le
    (by calc h.gasLimit < 2 ^ 64 := hgl
             _ = 256 ^ 8 := by norm_num)
  have bgu : (beBytes h.gasUsed).length ≤ 8 := beBytes_length_le
    (by calc h.gasUsed < 2 ^ 64 := hgu
             _ = 256 ^ 8 := by norm_num)
  have btm : (beBytes h.time).length ≤ 8 := beBytes_length_le
    (by calc h.time < 2 ^ 64 := htm
             _ = 256 ^ 8 := by norm_num)
  rw [decodeHeaderFromRLP, encodeHeaderToRLP, hdec]
  simp only [headerItems]
  rw [if_pos ⟨hph, huh, hcb, hrt, hth, hrh, hbl, hmd, hnn,
    beBytes_canonical h.difficulty, beBytes_canonical h.number,
    beBytes_canonical h.gasLimit, bgl, beBytes_canonical h.gasUsed, bgu,
    beBytes_canonical h.time, btm⟩]
  simp only [beNat_beBytes]

/-- C5: the nonce-free encoding emits exactly the first 13 fields of
the full 15-field encoding in the same order (its payload is the full
payload minus the trailing mixDigest and nonce fields), and its output
is independent of the header's nonce and mix-digest values. -/
theorem C5_encodeWithoutNonce_first13 (h : EthHeader) (md nn : List Nat) :
    headerItemsWithoutNonce h = (headerItems h).take 13 ∧
    rlpEncodeList (headerItems h) =
      rlpEncodeList (headerItemsWithoutNonce h) ++
        (rlpEncode (.bytes h.mixDigest) ++ rlpEncode (.bytes h.nonce)) ∧
    encodeHeaderWithoutNonceToRLP { h with mixDigest := md, nonce := nn } =
      encodeHeaderWithoutNonceToRLP h := by
  refine ⟨rfl, ?_, rfl⟩
  rw [headerItems, headerItemsWithoutNonce]
  simp [rlpEncodeList, List.append_assoc]

/-- C3: Header codec round-trip: for every valid header `h`, decoding
the bytes produced by the full 15-field RLP encoding yields a header
equal to `h`: `decodeHeaderFromRLP (encodeHeaderToRLP h) = some h`. -/
theorem C3_header_roundtrip (h : EthHeader) (hv : validHeader h = true) :
    decodeHeaderFromRLP (encodeHeaderToRLP h) = some h :=
  decodeHeader_encodeHeader h hv

/-- A concrete valid header exercising the round-trip. -/
def sampleHeader : EthHeader :=
  { parentHash := List.replicate 32 0, uncleHash := List.replicate 32 1,
    coinbase := List.replicate 20 2, root := List.replicate 32 3,
    txHash := List.replicate 32 4, receiptHash := List.replicate 32 5,
    bloom := List.replicate 256 0, difficulty := 1000, number := 100,
    gasLimit := 8000000, gasUsed := 21000, time := 1234567890,
    extra := [1, 2, 3], mixDigest := List.replicate 32 6,
    nonce := List.replicate 8 7 }

set_option maxRecDepth 100000 in
/-- Witness for C3 at a concrete header. -/
theorem C3_header_roundtrip_witness :
    validHeader sampleHeader = true ∧
      decodeHeaderFromRLP (encodeHeaderToRLP sampleHeader) = some sampleHeader :=
  ⟨by decide, C3_header_roundtrip sampleHeader (by decide)⟩

/-! ## Merkle-Patricia trie

Modelled from the spec: the go-ethereum `trie` package used by
`GenerateMerkleProofForTx` / `GenerateMerkleProofForReceipt`
(`trie.Trie`, `Update`, `NodeIterator`, `LeafKey`, `LeafProof`) is an
external collaborator whose source is not part of this repository.
Following the spec's description ("the keyed, hash-chained tree
structure used to compute transactions/receipts/state roots and to
produce compact inclusion proofs"), it is embedded as a hexary
Merkle trie over nibble keys, parameterised by the node-hashing
function `hash` (Keccak-256 in the real system): nodes are referenced
by the hash of their canonical (RLP) encoding, and a leaf proof is the
list of node encodings from the root to the leaf. -/

/-- Nibble sequence of a byte string (high nibble first). -/
def nibbles : List Nat → List Nat
  | [] => []
  | b :: rest => b / 16 :: b % 16 :: nibbles rest

theorem nibbles_injective : ∀ {a b : List Nat}, nibbles a = nibbles b → a = b := by
  intro a
  induction a with
  | nil =>
    intro b h
    match b with
    | [] => rfl
    | x :: xs => simp [nibbles] at h
  | cons x xs ih =>
    intro b h
    match b with
    | [] => simp [nibbles] at h
    | y :: ys =>
      simp only [nibbles, List.cons.injEq] at h
      obtain ⟨h1, h2, h3⟩ := h
      have hxy : x = y := by omega
      rw [hxy, ih h3]

/-- All key elements are nibbles. -/
def nibbleKey (ks : List Nat) : Bool :=
  ks.all (· < 16)

/-- In-memory hexary Merkle trie (fresh `trie.Trie`): empty node, leaf
with remaining key path, or 16-way branch with optional value. -/
inductive MPT where
  | empty : MPT
  | leaf (path : List Nat) (value : List Nat) : MPT
  | branch (children : Fin 16 → MPT) (value : Option (List Nat)) : MPT

/-- Key lookup (the final map the trie represents). -/
def MPT.lookup : MPT → List Nat → Option (List Nat)
  | .empty, _ => none
  | .leaf p v, ks => if p = ks then some v else none
  | .branch _ bv, [] => bv
  | .branch cs _, k :: ks => if h : k < 16 then (cs ⟨k, h⟩).lookup ks else none

/-- Merge two distinct leaves into a branch (helper of `MPT.insert`). -/
def splitLeaves : List Nat → List Nat → List Nat → List Nat → MPT
  | [], v1, [], _ => .leaf [] v1
  | [], v1, k2 :: ks2, v2 =>
      if h2 : k2 < 16 then
        .branch (Function.update (fun _ => .empty) ⟨k2, h2⟩ (.leaf ks2 v2)) (some v1)
      else .leaf [] v1
  | k1 :: ks1, v1, [], v2 =>
      if h1 : k1 < 16 then
        .branch (Function.update (fun _ => .empty) ⟨k1, h1⟩ (.leaf ks1 v1)) (some v2)
      else .leaf [] v2
  | k1 :: ks1, v1, k2 :: ks2, v2 =>
      if k1 = k2 then
        if h1 : k1 < 16 then
          .branch (Function.update (fun _ => .empty) ⟨k1, h1⟩ (splitLeaves ks1 v1 ks2 v2)) none
        else .empty
      else
        if h1 : k1 < 16 then
          if h2 : k2 < 16 then
            .branch (Function.update
              (Function.update (fun _ => .empty) ⟨k1, h1⟩ (.leaf ks1 v1))
              ⟨k2, h2⟩ (.leaf ks2 v2)) none
          else .empty
        else .empty

/-- `trie.Update`: insert (or overwrite) a key/value pair. -/
def MPT.insert : MPT → List Nat → List Nat → MPT
  | .empty, ks, v => .leaf ks v
  | .leaf p pv, ks, v => if p = ks then .leaf ks v else splitLeaves p pv ks v
  | .branch cs _, [], v => .branch cs (some v)
  | .branch cs bv, k :: ks, v =>
      if h : k < 16 then
        .branch (Function.update cs ⟨k, h⟩ ((cs ⟨k, h⟩).insert ks v)) bv
      else .branch cs bv

/-- Structural well-formedness: stored paths are nibble sequences and
stored byte strings have sizes a Go process can hold. -/
def MPT.wf : MPT → Bool
  | .empty => true
  | .leaf p v => nibbleKey p && decide (p.length < 2 ^ 32) && decide (v.length < 2 ^ 32)
  | .branch cs bv =>
      decide ((bv.getD []).length < 2 ^ 32) && (List.finRange 16).all (fun i => (cs i).wf)

theorem MPT.wf_branch_child {cs : Fin 16 → MPT} {bv : Option (List Nat)}
    (hwf : (MPT.branch cs bv).wf = true) (i : Fin 16) : (cs i).wf = true := by
  rw [MPT.wf, Bool.and_eq_true, List.all_eq_true] at hwf
  exact hwf.2 i (List.mem_finRange i)

theorem lookup_splitLeaves_self (p : List Nat) : ∀ (ks pv v : List Nat),
    nibbleKey p = true → nibbleKey ks = true → p ≠ ks →
    (splitLeaves p pv ks v).lookup ks = some v := by
  induction p with
  | nil =>
    intro ks pv v hp hks hne
    match ks, hne with
    | k2 :: ks2, _ =>
      rw [nibbleKey, List.all_cons, Bool.and_eq_true, decide_eq_true_eq] at hks
      rw [splitLeaves, dif_pos hks.1, MPT.lookup, dif_pos hks.1, Function.update_same,
        MPT.lookup, if_pos rfl]
  | cons k1 ks1 ih =>
    intro ks pv v hp hks hne
    rw [nibbleKey, List.all_cons, Bool.and_eq_true, decide_eq_true_eq] at hp
    match ks with
    | [] =>
      rw [splitLeaves, dif_pos hp.1, MPT.lookup]
    | k2 :: ks2 =>
      rw [nibbleKey, List.all_cons, Bool.and_eq_true, decide_eq_true_eq] at hks
      by_cases hk : k1 = k2
      · subst hk
        have hne2 : ks1 ≠ ks2 := by
          intro hcon
          exact hne (by rw [hcon])
        rw [splitLeaves, if_pos rfl, dif_pos hp.1, MPT.lookup, dif_pos hp.1,
          Function.update_same]
        exact ih ks2 pv v hp.2 hks.2 hne2
      · rw [splitLeaves, if_neg hk, dif_pos hp.1, dif_pos hks.1, MPT.lookup,
          dif_pos hks.1, Function.update_same, MPT.lookup, if_pos rfl]

theorem lookup_insert_self (t : MPT) (ks v : List Nat)
    (hwf : t.wf = true) (hks : nibbleKey ks = true) :
    (t.insert ks v).lookup ks = some v := by
  induction t generalizing ks with
  | empty =>
    rw [MPT.insert, MPT.lookup, if_pos rfl]
  | leaf p pv =>
    by_cases hpe : p = ks
    · rw [MPT.insert, if_pos hpe, MPT.lookup, if_pos rfl]
    · rw [MPT.insert, if_neg hpe]
      rw [MPT.wf, Bool.and_eq_true, Bool.and_eq_true] at hwf
      exact lookup_splitLeaves_self p ks pv v hwf.1.1 hks hpe
  | branch cs bv ih =>
    match ks with
    | [] =>
      rw [MPT.insert, MPT.lookup]
    | k :: ks1 =>
      rw [nibbleKey, List.all_cons, Bool.and_eq_true, decide_eq_true_eq] at hks
      rw [MPT.insert, dif_pos hks.1, MPT.lookup, dif_pos hks.1, Function.update_same]
      exact ih ⟨k, hks.1⟩ ks1 (MPT.wf_branch_child hwf ⟨k, hks.1⟩) hks.2

theorem lookup_splitLeaves_other (p : List Nat) : ∀ (ks ks' pv v : List Nat),
    nibbleKey p = true → nibbleKey ks = true → nibbleKey ks' = true →
    p ≠ ks → ks' ≠ ks →
    (splitLeaves p pv ks v).lookup ks' = (MPT.leaf p pv).lookup ks' := by
  induction p with
  | nil =>
    intro ks ks' pv v hp hks hks' hne hne'
    match ks, hne with
    | k2 :: ks2, _ =>
      rw [nibbleKey, List.all_cons, Bool.and_eq_true, decide_eq_true_eq] at hks
      rw [splitLeaves, dif_pos hks.1]
      match ks' with
      | [] => simp [MPT.lookup]
      | k' :: ks'' =>
        rw [nibbleKey, List.all_cons, Bool.and_eq_true, decide_eq_true_eq] at hks'
        simp only [MPT.lookup]
        rw [if_neg (by simp)]
        by_cases hkk : k' = k2
        · subst hkk
          have hne2 : ks'' ≠ ks2 := fun hcon => hne' (by rw [hcon])
          rw [dif_pos hks.1, Function.update_same]
          simp [MPT.lookup, (Ne.symm hne2 : ks2 ≠ ks'')]
        · rw [dif_pos hks'.1, Function.update_noteq (Fin.ne_of_val_ne hkk), MPT.lookup]
  | cons k1 ks1 ih =>
    intro ks ks' pv v hp hks hks' hne hne'
    rw [nibbleKey, List.all_cons, Bool.and_eq_true, decide_eq_true_eq] at hp
    match ks with
    | [] =>
      rw [splitLeaves, dif_pos hp.1]
      match ks', hne' with
      | k' :: ks'', _ =>
        rw [nibbleKey, List.all_cons, Bool.and_eq_true, decide_eq_true_eq] at hks'
        simp only [MPT.lookup]
        by_cases hkk : k' = k1
        · subst hkk
          rw [dif_pos hp.1, Function.update_same]
          simp only [MPT.lookup]
          by_cases hks1 : ks1 = ks''
          · rw [if_pos hks1, if_pos (by rw [hks1])]
          · rw [if_neg hks1, if_neg (by simp [hks1])]
        · rw [dif_pos hks'.1, Function.update_noteq (Fin.ne_of_val_ne hkk), MPT.lookup,
            if_neg (by simp [Ne.symm hkk])]
    | k2 :: ks2 =>
      rw [nibbleKey, List.all_cons, Bool.and_eq_true, decide_eq_true_eq] at hks
      by_cases hk : k1 = k2
      · subst hk
        rw [splitLeaves, if_pos rfl, dif_pos hp.1]
        match ks' with
        | [] => simp [MPT.lookup]
        | k' :: ks'' =>
          rw [nibbleKey, List.all_cons, Bool.and_eq_true, decide_eq_true_eq] at hks'
          simp only [MPT.lookup]
          by_cases hkk : k' = k1
          · subst hkk
            have hne2 : ks1 ≠ ks2 := fun hcon => hne (by rw [hcon])
            have hne2' : ks'' ≠ ks2 := fun hcon => hne' (by rw [hcon])
            rw [dif_pos hp.1, Function.update_same,
              ih ks2 ks'' pv v hp.2 hks.2 hks'.2 hne2 hne2']
            simp only [MPT.lookup]
            by_cases hks1 : ks1 = ks''
            · rw [if_pos hks1, if_pos (by rw [hks1])]
            · rw [if_neg hks1, if_neg (by simp [hks1])]
          · rw [dif_pos hks'.1, Function.update_noteq (Fin.ne_of_val_ne hkk), MPT.lookup,
              if_neg (by simp [Ne.symm hkk])]
      · rw [splitLeaves, if_neg hk, dif_pos hp.1, dif_pos hks.1]
        match ks' with
        | [] => simp [MPT.lookup]
        | k' :: ks'' =>
          rw [nibbleKey, List.all_cons, Bool.and_eq_true, decide_eq_true_eq] at hks'
          simp only [MPT.lookup]
          by_cases hkk2 : k' = k2
          · subst hkk2
            have hne2' : ks'' ≠ ks2 := fun hcon => hne' (by rw [hcon])
            rw [dif_pos hks.1, Function.update_same]
            simp [MPT.lookup, (Ne.symm hne2' : ks2 ≠ ks''), show ¬(k1 = k') from hk]
          · rw [dif_pos hks'.1, Function.update_noteq (Fin.ne_of_val_ne hkk2)]
            by_cases hkk1 : k' = k1
            · subst hkk1
              rw [show (⟨k', hks'.1⟩ : Fin 16) = ⟨k', hp.1⟩ from rfl, Function.update_same]
              simp only [MPT.lookup]
              by_cases hks1 : ks1 = ks''
              · rw [if_pos hks1, if_pos (by rw [hks1])]
              · rw [if_neg hks1, if_neg (by simp [hks1])]
            · rw [Function.update_noteq (Fin.ne_of_val_ne hkk1), MPT.lookup,
                if_neg (by simp [Ne.symm hkk1])]

theorem lookup_insert_other (t : MPT) : ∀ (ks ks' v : List Nat),
    t.wf = true → nibbleKey ks = true → nibbleKey ks' = true → ks' ≠ ks →
    (t.insert ks v).lookup ks' = t.lookup ks' := by
  induction t with
  | empty =>
    intro ks ks' v _ _ _ hne
    rw [MPT.insert]
    simp [MPT.lookup, Ne.symm hne]
  | leaf p pv =>
    intro ks ks' v hwf hks hks' hne
    rw [MPT.wf, Bool.and_eq_true, Bool.and_eq_true] at hwf
    by_cases hpe : p = ks
    · subst hpe
      rw [MPT.insert, if_pos rfl]
      simp [MPT.lookup, Ne.symm hne]
    · rw [MPT.insert, if_neg hpe]
      exact lookup_splitLeaves_other p ks ks' pv v hwf.1.1 hks hks' hpe hne
  | branch cs bv ih =>
    intro ks ks' v hwf hks hks' hne
    match ks with
    | [] =>
      rw [MPT.insert]
      match ks', hne with
      | k' :: ks'', _ => simp only [MPT.lookup]
    | k :: ks1 =>
      rw [nibbleKey, List.all_cons, Bool.and_eq_true, decide_eq_true_eq] at hks
      rw [MPT.insert, dif_pos hks.1]
      match ks' with
      | [] => simp only [MPT.lookup]
      | k' :: ks'' =>
        rw [nibbleKey, List.all_cons, Bool.and_eq_true, decide_eq_true_eq] at hks'
        simp only [MPT.lookup]
        by_cases hkk : k' = k
        · subst hkk
          have hne2 : ks'' ≠ ks1 := fun hcon => hne (by rw [hcon])
          rw [dif_pos hks.1, Function.update_same, dif_pos hks.1]
          exact ih ⟨k', hks.1⟩ ks1 ks'' v (MPT.wf_branch_child hwf ⟨k', hks.1⟩) hks.2 hks'.2 hne2
        · rw [dif_pos hks'.1, Function.update_noteq (Fin.ne_of_val_ne hkk), dif_pos hks'.1]

theorem MPT.wf_branch_intro {cs : Fin 16 → MPT} {bv : Option (List Nat)}
    (hbv : (bv.getD []).length < 2 ^ 32) (h : ∀ i, (cs i).wf = true) :
    (MPT.branch cs bv).wf = true := by
  rw [MPT.wf, Bool.and_eq_true, List.all_eq_true]
  exact ⟨by simpa using hbv, fun i _ => h i⟩

theorem MPT.wf_update {cs : Fin 16 → MPT} (h : ∀ i, (cs i).wf = true)
    {t : MPT} (ht : t.wf = true) (a : Fin 16) :
    ∀ i, ((Function.update cs a t) i).wf = true := by
  intro i
  by_cases hia : i = a
  · rw [hia, Function.update_same]
    exact ht
  · rw [Function.update_noteq hia]
    exact h i

theorem MPT.wf_empty_children : ∀ i : Fin 16, (MPT.empty).wf = true := by
  intro _
  rw [MPT.wf]

theorem nibbleKey_tail {k : Nat} {ks : List Nat} (h : nibbleKey (k :: ks) = true) :
    nibbleKey ks = true := by
  rw [nibbleKey, List.all_cons, Bool.and_eq_true] at h
  exact h.2

theorem wf_leaf_intro {p v : List Nat} (hp : nibbleKey p = true)
    (hpl : p.length < 2 ^ 32) (hvl : v.length < 2 ^ 32) :
    (MPT.leaf p v).wf = true := by
  rw [MPT.wf, Bool.and_eq_true, Bool.and_eq_true]
  exact ⟨⟨hp, by simpa using hpl⟩, by simpa using hvl⟩

theorem wf_splitLeaves (p : List Nat) : ∀ (ks pv v : List Nat),
    nibbleKey p = true → nibbleKey ks = true →
    p.length < 2 ^ 32 → ks.length < 2 ^ 32 →
    pv.length < 2 ^ 32 → v.length < 2 ^ 32 →
    (splitLeaves p pv ks v).wf = true := by
  induction p with
  | nil =>
    intro ks pv v hp hks hpl hksl hpvl hvl
    match ks with
    | [] =>
      rw [splitLeaves]
      exact wf_leaf_intro (by rw [nibbleKey]; simp) (by simp) hpvl
    | k2 :: ks2 =>
      rw [nibbleKey, List.all_cons, Bool.and_eq_true, decide_eq_true_eq] at hks
      rw [splitLeaves, dif_pos hks.1]
      apply MPT.wf_branch_intro (by simpa using hpvl)
      apply MPT.wf_update (fun i => by rw [MPT.wf])
      exact wf_leaf_intro hks.2 (by simp at hksl ⊢; omega) hvl
  | cons k1 ks1 ih =>
    intro ks pv v hp hks hpl hksl hpvl hvl
    rw [nibbleKey, List.all_cons, Bool.and_eq_true, decide_eq_true_eq] at hp
    match ks with
    | [] =>
      rw [splitLeaves, dif_pos hp.1]
      apply MPT.wf_branch_intro (by simpa using hvl)
      apply MPT.wf_update (fun i => by rw [MPT.wf])
      exact wf_leaf_intro hp.2 (by simp at hpl ⊢; omega) hpvl
    | k2 :: ks2 =>
      rw [nibbleKey, List.all_cons, Bool.and_eq_true, decide_eq_true_eq] at hks
      by_cases hk : k1 = k2
      · subst hk
        rw [splitLeaves, if_pos rfl, dif_pos hp.1]
        apply MPT.wf_branch_intro (by simp)
        apply MPT.wf_update (fun i => by rw [MPT.wf])
        exact ih ks2 pv v hp.2 hks.2 (by simp at hpl ⊢; omega) (by simp at hksl ⊢; omega)
          hpvl hvl
      · rw [splitLeaves, if_neg hk, dif_pos hp.1, dif_pos hks.1]
        apply MPT.wf_branch_intro (by simp)
        apply MPT.wf_update
        · apply MPT.wf_update (fun i => by rw [MPT.wf])
          exact wf_leaf_intro hp.2 (by simp at hpl ⊢; omega) hpvl
        · exact wf_leaf_intro hks.2 (by simp at hksl ⊢; omega) hvl

theorem wf_insert (t : MPT) : ∀ (ks v : List Nat),
    t.wf = true → nibbleKey ks = true → ks.length < 2 ^ 32 → v.length < 2 ^ 32 →
    (t.insert ks v).wf = true := by
  induction t with
  | empty =>
    intro ks v _ hks hksl hvl
    rw [MPT.insert]
    exact wf_leaf_intro hks hksl hvl
  | leaf p pv =>
    intro ks v hwf hks hksl hvl
    rw [MPT.wf, Bool.and_eq_true, Bool.and_eq_true, decide_eq_true_eq,
      decide_eq_true_eq] at hwf
    by_cases hpe : p = ks
    · rw [MPT.insert, if_pos hpe]
      exact wf_leaf_intro hks hksl hvl
    · rw [MPT.insert, if_neg hpe]
      exact wf_splitLeaves p ks pv v hwf.1.1 hks hwf.1.2 hksl hwf.2 hvl
  | branch cs bv ih =>
    intro ks v hwf hks hksl hvl
    match ks with
    | [] =>
      rw [MPT.insert]
      exact MPT.wf_branch_intro (by simpa using hvl) (fun i => MPT.wf_branch_child hwf i)
    | k :: ks1 =>
      rw [nibbleKey, List.all_cons, Bool.and_eq_true, decide_eq_true_eq] at hks
      rw [MPT.insert, dif_pos hks.1]
      apply MPT.wf_branch_intro
      · rw [MPT.wf, Bool.and_eq_true, decide_eq_true_eq] at hwf
        exact hwf.1
      · apply MPT.wf_update (fun i => MPT.wf_branch_child hwf i)
        exact ih ⟨k, hks.1⟩ ks1 v (MPT.wf_branch_child hwf ⟨k, hks.1⟩) hks.2
          (by simp at hksl ⊢; omega) hvl

/-- Canonical node encoding, parameterised by the node-hashing function
(Keccak-256 in go-ethereum).  A child is referenced by the hash of its
encoding; a branch node carries a tag, sixteen child references and its
value; a leaf carries a tag, its remaining path and its value. -/
def nodeEncode (hash : List Nat → List Nat) : MPT → List Nat
  | .empty => rlpEncode (.bytes [])
  | .leaf p v => rlpEncode (.list [.bytes [2], .bytes p, .bytes v])
  | .branch cs bv =>
      rlpEncode (.list [.bytes [1],
        .bytes (hash (nodeEncode hash (cs 0))), .bytes (hash (nodeEncode hash (cs 1))),
        .bytes (hash (nodeEncode hash (cs 2))), .bytes (hash (nodeEncode hash (cs 3))),
        .bytes (hash (nodeEncode hash (cs 4))), .bytes (hash (nodeEncode hash (cs 5))),
        .bytes (hash (nodeEncode hash (cs 6))), .bytes (hash (nodeEncode hash (cs 7))),
        .bytes (hash (nodeEncode hash (cs 8))), .bytes (hash (nodeEncode hash (cs 9))),
        .bytes (hash (nodeEncode hash (cs 10))), .bytes (hash (nodeEncode hash (cs 11))),
        .bytes (hash (nodeEncode hash (cs 12))), .bytes (hash (nodeEncode hash (cs 13))),
        .bytes (hash (nodeEncode hash (cs 14))), .bytes (hash (nodeEncode hash (cs 15))),
        .bytes (bv.getD [])])

/-- The root of the trie: the hash of the root node's encoding. -/
def trieRoot (hash : List Nat → List Nat) (t : MPT) : List Nat :=
  hash (nodeEncode hash t)

/-- `LeafProof` of go-ethereum's trie iterator at a given key: the
encodings of the nodes from the root down to the value-carrying node,
or `none` when the key is absent. -/
def leafProofNodes (hash : List Nat → List Nat) : MPT → List Nat → Option (List (List Nat))
  | .empty, _ => none
  | .leaf p v, ks =>
      if p = ks then some [nodeEncode hash (.leaf p v)] else none
  | .branch cs bv, [] =>
      match bv with
      | some _ => some [nodeEncode hash (.branch cs bv)]
      | none => none
  | .branch cs bv, k :: ks =>
      if h : k < 16 then
        match leafProofNodes hash (cs ⟨k, h⟩) ks with
        | some ns => some (nodeEncode hash (.branch cs bv) :: ns)
        | none => none
      else none

/-- Replay a leaf proof along a nibble path: parse each node encoding,
follow the path, check every child reference against the hash of the
next node, and return the recovered value together with the recomputed
root reference (the hash of the first node). -/
def replayProof (hash : List Nat → List Nat) :
    List (List Nat) → List Nat → Option (List Nat × List Nat)
  | [], _ => none
  | [n], ks =>
      match rlpDecode n with
      | some (.list [.bytes t, .bytes p, .bytes v]) =>
          if t = [2] ∧ p = ks then some (v, hash n) else none
      | some (.list (.bytes t :: rest)) =>
          if t = [1] ∧ ks = [] then
            match rest.getLast? with
            | some (.bytes v) => some (v, hash n)
            | _ => none
          else none
      | _ => none
  | n :: ns, ks =>
      match rlpDecode n, ks with
      | some (.list (.bytes t :: rest)), k :: ks1 =>
          if t = [1] then
            match replayProof hash ns ks1 with
            | some (v, r) =>
                match rest[k]? with
                | some (.bytes ref) => if ref = r then some (v, hash n) else none
                | _ => none
            | none => none
          else none
      | _, _ => none

theorem rlpEncode_bytes32_length {r : List Nat} (h : r.length = 32) :
    (rlpEncode (.bytes r)).length = 33 := by
  rw [rlpEncode, if_neg (by omega), encodeLength, if_pos (by omega)]
  simp [h]

theorem itemOk_leafNode {p v : List Nat} (hp : p.length < 2 ^ 32) (hv : v.length < 2 ^ 32) :
    itemOk (.list [.bytes [2], .bytes p, .bytes v]) = true := by
  rw [itemOk, Bool.and_eq_true]
  constructor
  · rw [decide_eq_true_eq, rlpEncodeList, rlpEncodeList, rlpEncodeList, rlpEncodeList]
    have h1 : (rlpEncode (.bytes [2])).length = 1 := by
      rw [rlpEncode, if_pos (by simp)]
      simp
    have h2 := @rlpEncode_bytes_length_le (p) (by omega)
    have h3 := @rlpEncode_bytes_length_le (v) (by omega)
    simp only [List.length_append, List.length_nil]
    omega
  · rw [itemsOk, itemsOk, itemsOk, itemsOk]
    simp only [itemOk, Bool.and_eq_true, decide_eq_true_eq, Bool.and_true]
    refine ⟨by simp, by omega, by omega⟩

theorem rlpDecode_leafNode (hash : List Nat → List Nat) {p v : List Nat}
    (hp : p.length < 2 ^ 32) (hv : v.length < 2 ^ 32) :
    rlpDecode (nodeEncode hash (.leaf p v)) = some (.list [.bytes [2], .bytes p, .bytes v]) := by
  rw [nodeEncode]
  exact rlpDecode_rlpEncode (itemOk_leafNode hp hv)

/-- The RLP item of a branch node's encoding. -/
def branchItem (hash : List Nat → List Nat) (cs : Fin 16 → MPT)
    (bv : Option (List Nat)) : RLPItem :=
  .list [.bytes [1],
    .bytes (hash (nodeEncode hash (cs 0))), .bytes (hash (nodeEncode hash (cs 1))),
    .bytes (hash (nodeEncode hash (cs 2))), .bytes (hash (nodeEncode hash (cs 3))),
    .bytes (hash (nodeEncode hash (cs 4))), .bytes (hash (nodeEncode hash (cs 5))),
    .bytes (hash (nodeEncode hash (cs 6))), .bytes (hash (nodeEncode hash (cs 7))),
    .bytes (hash (nodeEncode hash (cs 8))), .bytes (hash (nodeEncode hash (cs 9))),
    .bytes (hash (nodeEncode hash (cs 10))), .bytes (hash (nodeEncode hash (cs 11))),
    .bytes (hash (nodeEncode hash (cs 12))), .bytes (hash (nodeEncode hash (cs 13))),
    .bytes (hash (nodeEncode hash (cs 14))), .bytes (hash (nodeEncode hash (cs 15))),
    .bytes (bv.getD [])]

theorem nodeEncode_branch (hash : List Nat → List Nat) (cs : Fin 16 → MPT)
    (bv : Option (List Nat)) :
    nodeEncode hash (.branch cs bv) = rlpEncode (branchItem hash cs bv) := by
  rw [nodeEncode, branchItem]

theorem itemOk_branchNode (hash : List Nat → List Nat)
    (hashLen : ∀ bs, (hash bs).length = 32) (cs : Fin 16 → MPT)
    {bv : Option (List Nat)} (hbv : (bv.getD []).length < 2 ^ 32) :
    itemOk (branchItem hash cs bv) = true := by
  have href : ∀ t : MPT, (rlpEncode (.bytes (hash (nodeEncode hash t)))).length = 33 :=
    fun t => rlpEncode_bytes32_length (hashLen (nodeEncode hash t))
  have h1 : (rlpEncode (.bytes [1])).length = 1 := by
    rw [rlpEncode, if_pos (by simp)]
    simp
  have hvlen := @rlpEncode_bytes_length_le (bv.getD []) (by omega)
  rw [branchItem, itemOk, Bool.and_eq_true]
  constructor
  · rw [decide_eq_true_eq]
    simp only [rlpEncodeList, List.length_append, List.length_nil, href, h1]
    omega
  · simp only [itemsOk, itemOk, Bool.and_eq_true, decide_eq_true_eq, hashLen, Bool.and_true]
    refine ⟨by simp, ?_⟩
    refine ⟨by norm_num, by norm_num, by norm_num, by norm_num, by norm_num, by norm_num,
      by norm_num, by norm_num, by norm_num, by norm_num, by norm_num, by norm_num,
      by norm_num, by norm_num, by norm_num, by norm_num, by omega⟩

theorem rlpDecode_branchNode (hash : List Nat → List Nat)
    (hashLen : ∀ bs, (hash bs).length = 32) (cs : Fin 16 → MPT)
    {bv : Option (List Nat)} (hbv : (bv.getD []).length < 2 ^ 32) :
    rlpDecode (nodeEncode hash (.branch cs bv)) = some (branchItem hash cs bv) := by
  rw [nodeEncode_branch]
  exact rlpDecode_rlpEncode (itemOk_branchNode hash hashLen cs hbv)

/-- Soundness of leaf proofs: whenever a key is present in a
well-formed trie, the extracted proof replays along the key's nibble
path to exactly the stored value, and the root recomputed bottom-up
from the proof equals the trie root. -/
theorem replayProof_leafProofNodes (hash : List Nat → List Nat)
    (hashLen : ∀ bs, (hash bs).length = 32) (t : MPT) :
    ∀ ks v, t.wf = true → nibbleKey ks = true → t.lookup ks = some v →
    ∃ ns, leafProofNodes hash t ks = some ns ∧
      replayProof hash ns ks = some (v, trieRoot hash t) := by
  induction t with
  | empty =>
    intro ks v _ _ hl
    rw [MPT.lookup] at hl
    cases hl
  | leaf p pv =>
    intro ks v hwf hks hl
    rw [MPT.wf, Bool.and_eq_true, Bool.and_eq_true, decide_eq_true_eq,
      decide_eq_true_eq] at hwf
    rw [MPT.lookup] at hl
    by_cases hpe : p = ks
    · rw [if_pos hpe] at hl
      injection hl with hveq
      subst hveq
      subst hpe
      refine ⟨[nodeEncode hash (.leaf p pv)], ?_, ?_⟩
      · rw [leafProofNodes, if_pos rfl]
      · rw [replayProof, rlpDecode_leafNode hash hwf.1.2 hwf.2]
        dsimp only
        rw [if_pos ⟨rfl, rfl⟩]
        rfl
    · rw [if_neg hpe] at hl
      cases hl
  | branch cs bv ih =>
    intro ks v hwf hks hl
    have hbv : ((bv.getD [] : List Nat)).length < 2 ^ 32 := by
      rw [MPT.wf, Bool.and_eq_true, decide_eq_true_eq] at hwf
      exact hwf.1
    match ks with
    | [] =>
      rw [MPT.lookup] at hl
      subst hl
      refine ⟨[nodeEncode hash (.branch cs (some v))], ?_, ?_⟩
      · rw [leafProofNodes]
      · rw [replayProof, rlpDecode_branchNode hash hashLen cs hbv, branchItem]
        dsimp only
        rw [if_pos ⟨rfl, rfl⟩]
        rfl
    | k :: ks1 =>
      rw [nibbleKey, List.all_cons, Bool.and_eq_true, decide_eq_true_eq] at hks
      rw [MPT.lookup, dif_pos hks.1] at hl
      obtain ⟨ns1, hproof, hreplay⟩ := ih ⟨k, hks.1⟩ ks1 v
        (MPT.wf_branch_child hwf ⟨k, hks.1⟩) hks.2 hl
      match ns1, hreplay with
      | n2 :: ns2, hreplay =>
        refine ⟨nodeEncode hash (.branch cs bv) :: n2 :: ns2, ?_, ?_⟩
        · rw [leafProofNodes, dif_pos hks.1, hproof]
        · have hdec := rlpDecode_branchNode hash hashLen cs hbv
          rw [branchItem] at hdec
          simp only [replayProof, hdec, hreplay]
          have hk16 := hks.1
          interval_cases k <;>
            simp only [List.getElem?_cons_zero, List.getElem?_cons_succ, if_true] <;>
            split <;> first | rfl | (rename_i hcon; exact absurd rfl hcon)

theorem beBytes_lt_256 (n : Nat) : ∀ b ∈ beBytes n, b < 256 := by
  induction n using Nat.strong_induction_on with
  | _ n ih =>
    intro b hb
    rw [beBytes_unfold] at hb
    by_cases h : n = 0
    · simp [h] at hb
    · simp only [h, if_false, List.mem_append, List.mem_singleton] at hb
      rcases hb with hb | hb
      · exact ih (n / 256) (Nat.div_lt_self (Nat.pos_of_ne_zero h) (by omega)) b hb
      · omega

theorem rlpNat_lt_256 {n : Nat} (h : n < 2 ^ 64) : ∀ b ∈ rlpNat n, b < 256 := by
  intro b hb
  have hlen : (beBytes n).length ≤ 8 := beBytes_length_le
    (by calc n < 2 ^ 64 := h
             _ = 256 ^ 8 := by norm_num)
  rw [rlpNat, rlpEncode] at hb
  split at hb
  · exact beBytes_lt_256 n b hb
  · rw [encodeLength, if_pos (by omega)] at hb
    simp only [List.cons_append, List.nil_append, List.mem_cons] at hb
    rcases hb with hb | hb
    · omega
    · exact beBytes_lt_256 n b hb

theorem rlpNat_ne_nil (n : Nat) : rlpNat n ≠ [] := by
  rw [rlpNat, rlpEncode]
  split
  · rename_i hform
    intro hcon
    rw [hcon] at hform
    simp at hform
  · intro hcon
    rcases List.exists_cons_of_ne_nil (encodeLength_ne_nil 128 (beBytes n).length) with
      ⟨x, xs, hx⟩
    rw [hx] at hcon
    simp at hcon

theorem rlpNat_length_le {n : Nat} (h : n < 2 ^ 64) : (rlpNat n).length ≤ 9 := by
  have hlen : (beBytes n).length ≤ 8 := beBytes_length_le
    (by calc n < 2 ^ 64 := h
             _ = 256 ^ 8 := by norm_num)
  rw [rlpNat, rlpEncode]
  split
  · omega
  · rw [encodeLength, if_pos (by omega)]
    simp only [List.cons_append, List.nil_append, List.length_cons]
    omega

theorem nibbles_length (bs : List Nat) : (nibbles bs).length = 2 * bs.length := by
  induction bs with
  | nil => rw [nibbles, List.length_nil]
  | cons b rest ih =>
    rw [nibbles]
    simp only [List.length_cons, ih]
    omega

theorem nibbles_ne_nil {bs : List Nat} (h : bs ≠ []) : nibbles bs ≠ [] := by
  intro hcon
  have := nibbles_length bs
  rw [hcon] at this
  simp only [List.length_nil] at this
  have : bs.length = 0 := by omega
  exact h (List.length_eq_zero.mp this)

theorem nibbleKey_nibbles {bs : List Nat} (h : ∀ b ∈ bs, b < 256) :
    nibbleKey (nibbles bs) = true := by
  induction bs with
  | nil => rw [nibbles, nibbleKey, List.all_nil]
  | cons b rest ih =>
    rw [nibbles, nibbleKey, List.all_cons, List.all_cons]
    have hb : b < 256 := h b (List.mem_cons_self b rest)
    have h1 : b / 16 < 16 := by omega
    have h2 : b % 16 < 16 := by omega
    have := ih (fun x hx => h x (List.mem_cons_of_mem b hx))
    rw [nibbleKey] at this
    simp [h1, h2, this]

/-- The trie key of index `i` has nibble-sized elements with a valid
nibble key when `i` is word-sized. -/
theorem nibbleKey_rlpNat {i : Nat} (h : i < 2 ^ 64) :
    nibbleKey (nibbles (rlpNat i)) = true :=
  nibbleKey_nibbles (rlpNat_lt_256 h)

/-- The trie-building loop of the Merkle proof builders: insert the
values `vals` under the keys `rlp(i0), rlp(i0+1), ...`. -/
def insertTxs : List (List Nat) → Nat → MPT → MPT
  | [], _, t => t
  | v :: rest, i0, t => insertTxs rest (i0 + 1) (t.insert (nibbles (rlpNat i0)) v)

theorem wf_insertTxs (vals : List (List Nat)) : ∀ (i0 : Nat) (t : MPT),
    t.wf = true → i0 + vals.length < 2 ^ 32 → (∀ v ∈ vals, v.length < 2 ^ 32) →
    (insertTxs vals i0 t).wf = true := by
  induction vals with
  | nil =>
    intro i0 t hwf _ _
    rw [insertTxs]
    exact hwf
  | cons v rest ih =>
    intro i0 t hwf hbound hv
    rw [insertTxs]
    simp only [List.length_cons] at hbound
    apply ih (i0 + 1) _ _ (by omega) (fun x hx => hv x (List.mem_cons_of_mem v hx))
    apply wf_insert t _ v hwf (nibbleKey_rlpNat (by omega))
    · rw [nibbles_length]
      have := rlpNat_length_le (n := i0) (by omega)
      omega
    · exact hv v (List.mem_cons_self v rest)

theorem key_ne_of_idx_ne {i j : Nat} (hi : i < 2 ^ 64) (hj : j < 2 ^ 64) (hne : i ≠ j) :
    nibbles (rlpNat i) ≠ nibbles (rlpNat j) := by
  intro hcon
  exact hne (rlpNat_inj hi hj (nibbles_injective hcon))

theorem lookup_insertTxs_lt (vals : List (List Nat)) : ∀ (i0 j : Nat) (t : MPT),
    t.wf = true → j < i0 → i0 + vals.length < 2 ^ 32 →
    (∀ v ∈ vals, v.length < 2 ^ 32) →
    (insertTxs vals i0 t).lookup (nibbles (rlpNat j)) = t.lookup (nibbles (rlpNat j)) := by
  induction vals with
  | nil =>
    intro i0 j t _ _ _ _
    rw [insertTxs]
  | cons v rest ih =>
    intro i0 j t hwf hj hbound hv
    rw [insertTxs]
    simp only [List.length_cons] at hbound
    rw [ih (i0 + 1) j _
      (wf_insert t _ v hwf (nibbleKey_rlpNat (by omega))
        (by rw [nibbles_length]; have := rlpNat_length_le (n := i0) (by omega); omega)
        (hv v (List.mem_cons_self v rest)))
      (by omega) (by omega) (fun x hx => hv x (List.mem_cons_of_mem v hx))]
    exact lookup_insert_other t _ _ v hwf (nibbleKey_rlpNat (by omega))
      (nibbleKey_rlpNat (by omega))
      (key_ne_of_idx_ne (by omega) (by omega) (by omega))

theorem lookup_insertTxs_hit (vals : List (List Nat)) : ∀ (i0 k : Nat) (t : MPT),
    t.wf = true → (hk : k < vals.length) → i0 + vals.length < 2 ^ 32 →
    (∀ v ∈ vals, v.length < 2 ^ 32) →
    (insertTxs vals i0 t).lookup (nibbles (rlpNat (i0 + k))) = vals[k]? := by
  induction vals with
  | nil =>
    intro i0 k t _ hk _ _
    simp at hk
  | cons v rest ih =>
    intro i0 k t hwf hk hbound hv
    rw [insertTxs]
    simp only [List.length_cons] at hbound
    have hwf1 : (t.insert (nibbles (rlpNat i0)) v).wf = true :=
      wf_insert t _ v hwf (nibbleKey_rlpNat (by omega))
        (by rw [nibbles_length]; have := rlpNat_length_le (n := i0) (by omega); omega)
        (hv v (List.mem_cons_self v rest))
    match k with
    | 0 =>
      rw [lookup_insertTxs_lt rest (i0 + 1) (i0 + 0) _ hwf1 (by omega) (by omega)
        (fun x hx => hv x (List.mem_cons_of_mem v hx))]
      simp only [Nat.add_zero, List.getElem?_cons_zero]
      exact lookup_insert_self t _ v hwf (nibbleKey_rlpNat (by omega))
    | k' + 1 =>
      have : i0 + (k' + 1) = (i0 + 1) + k' := by omega
      rw [this, ih (i0 + 1) k' _ hwf1 (by simp at hk; omega) (by omega)
        (fun x hx => hv x (List.mem_cons_of_mem v hx))]
      simp

/-! ## Merkle proof builders

Embedding of `GenerateMerkleProofForTx` and
`GenerateMerkleProofForReceipt` from `testimonium/client.go`.  The
chain RPC collaborator is a pair of lookup functions; a transaction is
represented by its RLP encoding (the only view the code uses, via
`Transactions.GetRlp`); a receipt carries the fields the code reads
plus its RLP encoding (`Receipt.EncodeRLP`).  `Transactions.GetRlp`
indexes the slice without a bounds check, so an out-of-range
`TransactionIndex` is a Go panic, modelled by the `panic` outcome. -/

structure Receipt where
  txHash : List Nat
  blockHash : List Nat
  transactionIndex : Nat
  encoded : List Nat
deriving DecidableEq

structure Block where
  header : EthHeader
  transactions : List (List Nat)
deriving DecidableEq

inductive ProofResult where
  | ok (rlpHeader rlpValue path rlpProofNodes : List Nat) : ProofResult
  | fetchError : ProofResult
  | panic : ProofResult
deriving DecidableEq

/-- Does the proof builder return a proof (as opposed to failing)? -/
def ProofResult.isOk : ProofResult → Bool
  | .ok _ _ _ _ => true
  | _ => false

/-- `GenerateMerkleProofForTx`: fetch the receipt and block, rebuild
the transactions trie with keys `rlp(uint(i))` and values `GetRlp(i)`,
walk the trie for the leaf whose key equals `rlp(TransactionIndex)`,
and return the RLP-encoded header, transaction, path and proof-node
list. -/
def generateMerkleProofForTx (hash : List Nat → List Nat)
    (getReceipt : List Nat → Option Receipt) (getBlock : List Nat → Option Block)
    (txHash : List Nat) : ProofResult :=
  match getReceipt txHash with
  | none => .fetchError
  | some txReceipt =>
    match getBlock txReceipt.blockHash with
    | none => .fetchError
    | some block =>
      let txList := block.transactions
      let merkleTrie := insertTxs txList 0 .empty
      if hidx : txReceipt.transactionIndex < txList.length then
        let rlpEncodedTx := txList.get ⟨txReceipt.transactionIndex, hidx⟩
        let path := rlpNat txReceipt.transactionIndex
        let proofNodes := (leafProofNodes hash merkleTrie (nibbles path)).getD []
        .ok (encodeHeaderToRLP block.header) rlpEncodedTx path
          (rlpEncode (.list (proofNodes.map .bytes)))
      else .panic

/-- The receipt-fetch loop of `GenerateMerkleProofForReceipt`: one
remote receipt lookup per transaction (by the transaction's hash),
aborting on the first failure. -/
def receiptsFor (getReceipt : List Nat → Option Receipt)
    (hash : List Nat → List Nat) : List (List Nat) → Option (List Receipt)
  | [] => some []
  | tx :: rest =>
    match getReceipt (hash tx), receiptsFor getReceipt hash rest with
    | some r, some rs => some (r :: rs)
    | _, _ => none

/-- The index of the last fetched receipt whose `TxHash` equals the
target's (`GenerateMerkleProofForReceipt` overwrites `path` on every
match, so the last match wins); `none` when no receipt matches. -/
def lastMatchIdx (target : List Nat) : List Receipt → Nat → Option Nat
  | [], _ => none
  | r :: rest, i =>
    match lastMatchIdx target rest (i + 1) with
    | some j => some j
    | none => if r.txHash = target then some i else none

/-- `GenerateMerkleProofForReceipt`: fetch the target receipt and its
block, fetch every transaction's receipt, rebuild the receipts trie
with keys `rlp(uint(i))` and values `EncodeRLP`, remember the path of
the receipt matching the target (else the nil path), and return the
encoded header, receipt, path and proof-node list. -/
def generateMerkleProofForReceipt (hash : List Nat → List Nat)
    (getReceipt : List Nat → Option Receipt) (getBlock : List Nat → Option Block)
    (txHash : List Nat) : ProofResult :=
  match getReceipt txHash with
  | none => .fetchError
  | some txReceipt =>
    match getBlock txReceipt.blockHash with
    | none => .fetchError
    | some block =>
      match receiptsFor getReceipt hash block.transactions with
      | none => .fetchError
      | some receipts =>
        let merkleTrie := insertTxs (receipts.map Receipt.encoded) 0 .empty
        let path := match lastMatchIdx txReceipt.txHash receipts 0 with
          | some i => rlpNat i
          | none => []
        let rlpEncodedReceipt := match lastMatchIdx txReceipt.txHash receipts 0 with
          | some i => (receipts.map Receipt.encoded).getD i []
          | none => []
        let proofNodes := (leafProofNodes hash merkleTrie (nibbles path)).getD []
        .ok (encodeHeaderToRLP block.header) rlpEncodedReceipt path
          (rlpEncode (.list (proofNodes.map .bytes)))

theorem leafProofNodes_eq_none (hash : List Nat → List Nat) (t : MPT) :
    ∀ ks, t.lookup ks = none → leafProofNodes hash t ks = none := by
  induction t with
  | empty =>
    intro ks _
    rw [leafProofNodes]
  | leaf p v =>
    intro ks hl
    rw [MPT.lookup] at hl
    rw [leafProofNodes]
    split at hl
    · cases hl
    · rw [if_neg (by assumption)]
  | branch cs bv ih =>
    intro ks hl
    match ks with
    | [] =>
      rw [MPT.lookup] at hl
      subst hl
      rw [leafProofNodes]
    | k :: ks1 =>
      rw [MPT.lookup] at hl
      rw [leafProofNodes]
      by_cases hk : k < 16
      · rw [dif_pos hk] at hl
        rw [dif_pos hk, ih ⟨k, hk⟩ ks1 hl]
      · rw [dif_neg hk]

theorem lookup_insertTxs_nil (vals : List (List Nat)) : ∀ (i0 : Nat) (t : MPT),
    t.wf = true → i0 + vals.length < 2 ^ 32 → (∀ v ∈ vals, v.length < 2 ^ 32) →
    (insertTxs vals i0 t).lookup [] = t.lookup [] := by
  induction vals with
  | nil =>
    intro i0 t _ _ _
    rw [insertTxs]
  | cons v rest ih =>
    intro i0 t hwf hbound hv
    rw [insertTxs]
    simp only [List.length_cons] at hbound
    rw [ih (i0 + 1) _
      (wf_insert t _ v hwf (nibbleKey_rlpNat (by omega))
        (by rw [nibbles_length]; have := rlpNat_length_le (n := i0) (by omega); omega)
        (hv v (List.mem_cons_self v rest)))
      (by omega) (fun x hx => hv x (List.mem_cons_of_mem v hx))]
    exact lookup_insert_other t _ [] v hwf (nibbleKey_rlpNat (by omega))
      (by rw [nibbleKey]; simp)
      (Ne.symm (nibbles_ne_nil (rlpNat_ne_nil i0)))

/-- C1: Trie proof soundness.  For every block whose transaction list
is `T_0 .. T_{n-1}` (given through a consistent chain view: the header
stores the root of the reconstructed transactions trie) and every
in-range index `i`, `GenerateMerkleProofForTx` returns a tuple
`(headerBytes, valueBytes, path, proofNodes)` such that replaying the
proof nodes along the path reconstructs exactly `T_i`'s RLP encoding,
the root recomputed bottom-up equals the header's stored transactions
root, the path is the RLP encoding of the unsigned integer `i`, and
the value is `T_i`'s own RLP encoding. -/
theorem C1_generateMerkleProofForTx_sound
    (hash : List Nat → List Nat) (hashLen : ∀ bs, (hash bs).length = 32)
    (getReceipt : List Nat → Option Receipt) (getBlock : List Nat → Option Block)
    (txh : List Nat) (r : Receipt) (b : Block)
    (hr : getReceipt txh = some r) (hb : getBlock r.blockHash = some b)
    (hidx : r.transactionIndex < b.transactions.length)
    (hcount : b.transactions.length < 2 ^ 32)
    (hlens : ∀ v ∈ b.transactions, v.length < 2 ^ 32)
    (hroot : b.header.txHash = trieRoot hash (insertTxs b.transactions 0 .empty)) :
    ∃ ns,
      generateMerkleProofForTx hash getReceipt getBlock txh =
        .ok (encodeHeaderToRLP b.header)
          (b.transactions.get ⟨r.transactionIndex, hidx⟩)
          (rlpNat r.transactionIndex)
          (rlpEncode (.list (ns.map .bytes))) ∧
      replayProof hash ns (nibbles (rlpNat r.transactionIndex)) =
        some (b.transactions.get ⟨r.transactionIndex, hidx⟩, b.header.txHash) := by
  have hwf : (insertTxs b.transactions 0 MPT.empty).wf = true :=
    wf_insertTxs b.transactions 0 .empty (by rw [MPT.wf]) (by omega) hlens
  have hkey : nibbleKey (nibbles (rlpNat r.transactionIndex)) = true :=
    nibbleKey_rlpNat (by omega)
  have hlook : (insertTxs b.transactions 0 MPT.empty).lookup
      (nibbles (rlpNat r.transactionIndex)) =
      some (b.transactions.get ⟨r.transactionIndex, hidx⟩) := by
    have := lookup_insertTxs_hit b.transactions 0 r.transactionIndex .empty
      (by rw [MPT.wf]) hidx (by omega) hlens
    rw [Nat.zero_add] at this
    rw [this, List.getElem?_eq_getElem hidx]
    rfl
  obtain ⟨ns, hpn, hrp⟩ := replayProof_leafProofNodes hash hashLen
    (insertTxs b.transactions 0 .empty) (nibbles (rlpNat r.transactionIndex))
    (b.transactions.get ⟨r.transactionIndex, hidx⟩) hwf hkey hlook
  refine ⟨ns, ?_, ?_⟩
  · simp only [generateMerkleProofForTx, hr, hb]
    rw [dif_pos hidx, hpn]
    rfl
  · rw [hrp, hroot]

/-- A concrete hash collaborator with 32-byte output. -/
def hash32 (bs : List Nat) : List Nat :=
  (bs ++ List.replicate 32 0).take 32

theorem hash32_length (bs : List Nat) : (hash32 bs).length = 32 := by
  rw [hash32]
  simp

/-- A concrete one-transaction chain view for the witnesses: the header
stores exactly the root of the rebuilt transactions trie. -/
def wBlock : Block :=
  { header := { sampleHeader with
      txHash := trieRoot hash32 (insertTxs [[193, 5]] 0 .empty) },
    transactions := [[193, 5]] }

def wReceipt : Receipt :=
  { txHash := List.replicate 32 8, blockHash := List.replicate 32 3,
    transactionIndex := 0, encoded := [193, 7] }

def wGetReceipt (h : List Nat) : Option Receipt :=
  if h = List.replicate 32 8 then some wReceipt else none

def wGetBlock (h : List Nat) : Option Block :=
  if h = List.replicate 32 3 then some wBlock else none

set_option maxRecDepth 100000 in
/-- Witness for C1 at a concrete one-transaction block. -/
theorem C1_generateMerkleProofForTx_sound_witness :
    ∃ ns,
      generateMerkleProofForTx hash32 wGetReceipt wGetBlock (List.replicate 32 8) =
        .ok (encodeHeaderToRLP wBlock.header)
          (wBlock.transactions.get ⟨wReceipt.transactionIndex, by decide⟩)
          (rlpNat wReceipt.transactionIndex)
          (rlpEncode (.list (ns.map .bytes))) ∧
      replayProof hash32 ns (nibbles (rlpNat wReceipt.transactionIndex)) =
        some (wBlock.transactions.get ⟨wReceipt.transactionIndex, by decide⟩,
          wBlock.header.txHash) :=
  C1_generateMerkleProofForTx_sound hash32 hash32_length wGetReceipt wGetBlock
    (List.replicate 32 8) wReceipt wBlock (by decide) (by decide) (by decide)
    (by decide) (by decide) rfl

/-- C2 (amended): the Merkle proof builder performs no comparison
between the reconstructed trie root and the root stored in the block
header; whenever the fetches succeed and the transaction index is in
range it returns a proof, whether or not the two roots agree. -/
theorem C2_no_root_check
    (hash : List Nat → List Nat)
    (getReceipt : List Nat → Option Receipt) (getBlock : List Nat → Option Block)
    (txh : List Nat) (r : Receipt) (b : Block)
    (hr : getReceipt txh = some r) (hb : getBlock r.blockHash = some b)
    (hidx : r.transactionIndex < b.transactions.length) :
    (generateMerkleProofForTx hash getReceipt getBlock txh).isOk = true := by
  simp only [generateMerkleProofForTx, hr, hb]
  rw [dif_pos hidx]
  rfl

/-- A chain view whose header stores a transactions root different
from the root of the trie rebuilt from the block's transactions
(inconsistent/stale data). -/
def cBlock : Block :=
  { header := { sampleHeader with txHash := List.replicate 32 9 },
    transactions := [[193, 5]] }

def cGetBlock (h : List Nat) : Option Block :=
  if h = List.replicate 32 3 then some cBlock else none

set_option maxRecDepth 100000 in
/-- Counterexample to C2 as stated: on a block whose stored
transactions root differs from the reconstructed trie root, the
operation still returns a proof instead of failing with an error. -/
theorem C2_counterexample :
    trieRoot hash32 (insertTxs cBlock.transactions 0 .empty) ≠ cBlock.header.txHash ∧
    (generateMerkleProofForTx hash32 wGetReceipt cGetBlock (List.replicate 32 8)).isOk
      = true := by
  constructor
  · decide
  · decide

set_option maxRecDepth 100000 in
/-- Witness for C2 (amended) at the same inconsistent chain view. -/
theorem C2_no_root_check_witness :
    (generateMerkleProofForTx hash32 wGetReceipt cGetBlock (List.replicate 32 8)).isOk
      = true :=
  C2_no_root_check hash32 wGetReceipt cGetBlock (List.replicate 32 8) wReceipt cBlock
    (by decide) (by decide) (by decide)

/-- C7 (amended): when the trie walk finds no leaf matching the
computed path — reachable in the receipt builder when none of the
fetched receipts carries the target's `TxHash`, so the path stays nil —
the operation does not fail: it returns success, with a nil value, a
nil path and the RLP encoding of an empty proof-node list (`0xc0`). -/
theorem C7_no_error_on_missing_leaf
    (hash : List Nat → List Nat)
    (getReceipt : List Nat → Option Receipt) (getBlock : List Nat → Option Block)
    (txh : List Nat) (r : Receipt) (b : Block) (rs : List Receipt)
    (hr : getReceipt txh = some r) (hb : getBlock r.blockHash = some b)
    (hrf : receiptsFor getReceipt hash b.transactions = some rs)
    (hlm : lastMatchIdx r.txHash rs 0 = none)
    (hcount : rs.length < 2 ^ 32)
    (hlens : ∀ x ∈ rs.map Receipt.encoded, x.length < 2 ^ 32) :
    generateMerkleProofForReceipt hash getReceipt getBlock txh =
      .ok (encodeHeaderToRLP b.header) [] [] (rlpEncode (.list [])) ∧
    rlpEncode (.list []) = [192] := by
  have hnil : (insertTxs (rs.map Receipt.encoded) 0 MPT.empty).lookup [] = none := by
    rw [lookup_insertTxs_nil (rs.map Receipt.encoded) 0 .empty (by rw [MPT.wf])
      (by simp only [List.length_map, Nat.zero_add]; omega) hlens]
    rw [MPT.lookup]
  refine ⟨?_, rfl⟩
  simp only [generateMerkleProofForReceipt, hr, hb, hrf, hlm]
  rw [show nibbles [] = [] from rfl,
    leafProofNodes_eq_none hash (insertTxs (rs.map Receipt.encoded) 0 .empty) [] hnil]
  rfl

/-- Concrete chain view where the walk finds no matching leaf: the
single fetched receipt's `TxHash` differs from the target's. -/
def b7 : Block :=
  { header := sampleHeader, transactions := [[193, 5]] }

def r7 : Receipt :=
  { txHash := List.replicate 32 8, blockHash := List.replicate 32 3,
    transactionIndex := 0, encoded := [193, 7] }

def rOther : Receipt :=
  { txHash := List.replicate 32 4, blockHash := List.replicate 32 3,
    transactionIndex := 0, encoded := [193, 9] }

def gr7 (h : List Nat) : Option Receipt :=
  if h = List.replicate 32 8 then some r7
  else if h = hash32 [193, 5] then some rOther
  else none

def gb7 (h : List Nat) : Option Block :=
  if h = List.replicate 32 3 then some b7 else none

set_option maxRecDepth 100000 in
/-- Counterexample to C7 as stated: with no leaf matching the computed
path, `GenerateMerkleProofForReceipt` does not fail with a
trie-inconsistency error; it returns success with a nil value, a nil
path and `0xc0` (the RLP encoding of an empty proof-node list). -/
theorem C7_counterexample :
    generateMerkleProofForReceipt hash32 gr7 gb7 (List.replicate 32 8) =
      .ok (encodeHeaderToRLP b7.header) [] [] [192] := by
  decide

set_option maxRecDepth 100000 in
/-- Witness for C7 (amended) at the concrete chain view. -/
theorem C7_no_error_on_missing_leaf_witness :
    generateMerkleProofForReceipt hash32 gr7 gb7 (List.replicate 32 8) =
      .ok (encodeHeaderToRLP b7.header) [] [] (rlpEncode (.list [])) ∧
    rlpEncode (.list []) = [192] :=
  C7_no_error_on_missing_leaf hash32 gr7 gb7 (List.replicate 32 8) r7 b7 [rOther]
    rfl rfl (by decide) (by decide) (by decide) (by decide)

/-! ## Event-replay locator

Embedding of `getRlpHeaderByTestimoniumSubmitEvent`: scan the
submit-header events in order, and for the first event whose raw
payload equals the target block hash, fetch its transaction and parse
the calldata by hand (4-byte selector `0xd5107381`, a 32-byte offset
word at byte 4, a 32-byte length word at `4 + offset`, then the
header bytes).  Go slice expressions panic when out of range and
`big.Int.Uint64` truncates to the low 64 bits; both are modelled
explicitly. -/

structure SubmitEvent where
  data : List Nat
  txHash : List Nat
deriving DecidableEq

structure ChainTx where
  data : List Nat
  isPending : Bool
deriving DecidableEq

inductive LocatorResult where
  | ok (rlpHeader : List Nat) : LocatorResult
  | fetchError : LocatorResult
  | pendingError : LocatorResult
  | signatureMismatchError : LocatorResult
  | noSubmissionError : LocatorResult
  | panic : LocatorResult
deriving DecidableEq

/-- Go slice expression `bs[lo:hi]`: in range iff `lo ≤ hi ≤ len`,
panic (`none`) otherwise. -/
def goSlice (bs : List Nat) (lo hi : Nat) : Option (List Nat) :=
  if lo ≤ hi ∧ hi ≤ bs.length then some ((bs.drop lo).take (hi - lo)) else none

/-- Truncation to a Go `uint64` (`big.Int.Uint64`, wrap-around sums). -/
def U64 (n : Nat) : Nat :=
  n % 2 ^ 64

/-- The submit-method selector `common.Hex2Bytes("d5107381")`. -/
def submitSelector : List Nat :=
  [213, 16, 115, 129]

/-- `getRlpHeaderByTestimoniumSubmitEvent`. -/
def getRlpHeaderBySubmitEvent (getTx : List Nat → Option ChainTx) :
    List SubmitEvent → List Nat → LocatorResult
  | [], _ => .noSubmissionError
  | ev :: rest, blockHash =>
    if ev.data = blockHash then
      match getTx ev.txHash with
      | none => .fetchError
      | some tx =>
        if tx.isPending then .pendingError
        else
          match goSlice tx.data 0 4 with
          | none => .panic
          | some methodId =>
            if methodId ≠ submitSelector then .signatureMismatchError
            else
              match goSlice tx.data 4 36 with
              | none => .panic
              | some posBytes =>
                let position := U64 (beNat posBytes)
                match goSlice tx.data (U64 (4 + position)) (U64 (4 + position + 32)) with
                | none => .panic
                | some lenBytes =>
                  let len := U64 (beNat lenBytes)
                  match goSlice tx.data (U64 (4 + position + 32))
                      (U64 (4 + position + 32 + len)) with
                  | none => .panic
                  | some rlpHeader => .ok rlpHeader
    else getRlpHeaderBySubmitEvent getTx rest blockHash

theorem U64_eq_of_lt {n : Nat} (h : n < 2 ^ 64) : U64 n = n :=
  Nat.mod_eq_of_lt h

/-- C4: Locator correctness.  For the first event whose payload equals
the target block hash, the locator returns exactly the dynamic
byte-array parameter of that event's transaction calldata: the `len`
bytes after the 4-byte selector, the offset word read at byte 4 and
the length word read at `4 + offset`; and when no event's payload
matches, it fails with the no-submission-found error. -/
theorem C4_locator_correct
    (getTx : List Nat → Option ChainTx) (blockHash : List Nat)
    (pre post : List SubmitEvent) (ev : SubmitEvent) (tx : ChainTx)
    (pos len : Nat)
    (hpre : ∀ e ∈ pre, e.data ≠ blockHash)
    (hmatch : ev.data = blockHash)
    (htx : getTx ev.txHash = some tx)
    (hpending : tx.isPending = false)
    (hsel : tx.data.take 4 = submitSelector)
    (hpos : beNat ((tx.data.drop 4).take 32) = pos)
    (hlenw : beNat ((tx.data.drop (4 + pos)).take 32) = len)
    (hposb : pos < 2 ^ 32) (hlenb : len < 2 ^ 32)
    (hbound : 4 + pos + 32 + len ≤ tx.data.length)
    (hdatab : tx.data.length < 2 ^ 32) :
    getRlpHeaderBySubmitEvent getTx (pre ++ ev :: post) blockHash =
      .ok ((tx.data.drop (4 + pos + 32)).take len) ∧
    (∀ events : List SubmitEvent, (∀ e ∈ events, e.data ≠ blockHash) →
      getRlpHeaderBySubmitEvent getTx events blockHash = .noSubmissionError) := by
  constructor
  · induction pre with
    | nil =>
      have hs1 : goSlice tx.data 0 4 = some (tx.data.take 4) := by
        rw [goSlice, if_pos ⟨by omega, by omega⟩]
        simp
      have hs2 : goSlice tx.data 4 36 = some ((tx.data.drop 4).take 32) := by
        rw [goSlice, if_pos ⟨by omega, by omega⟩]
      have hs3 : goSlice tx.data (4 + pos) (4 + pos + 32) =
          some ((tx.data.drop (4 + pos)).take 32) := by
        rw [goSlice, if_pos ⟨by omega, by omega⟩]
        simp
      have hs4 : goSlice tx.data (4 + pos + 32) (4 + pos + 32 + len) =
          some ((tx.data.drop (4 + pos + 32)).take len) := by
        rw [goSlice, if_pos ⟨by omega, by omega⟩]
        simp
      have hU1 : U64 pos = pos := U64_eq_of_lt (by omega)
      have hU2 : U64 (4 + pos) = 4 + pos := U64_eq_of_lt (by omega)
      have hU3 : U64 (4 + pos + 32) = 4 + pos + 32 := U64_eq_of_lt (by omega)
      have hU4 : U64 (4 + pos + 32 + len) = 4 + pos + 32 + len := U64_eq_of_lt (by omega)
      have hU5 : U64 len = len := U64_eq_of_lt (by omega)
      rw [List.nil_append, getRlpHeaderBySubmitEvent, if_pos hmatch]
      simp only [htx, hpending, Bool.false_eq_true, if_false, hs1, hsel, ne_eq,
        not_true_eq_false, hs2, hpos, hU1, hU2, hU3, hs3, hlenw, hU5, hU4, hs4,
        ite_false]
    | cons e pre1 ih =>
      rw [List.cons_append, getRlpHeaderBySubmitEvent,
        if_neg (hpre e (List.mem_cons_self e pre1))]
      exact ih (fun x hx => hpre x (List.mem_cons_of_mem e hx))
  · intro events hnone
    induction events with
    | nil => rw [getRlpHeaderBySubmitEvent]
    | cons e rest ih =>
      rw [getRlpHeaderBySubmitEvent, if_neg (hnone e (List.mem_cons_self e rest))]
      exact ih (fun x hx => hnone x (List.mem_cons_of_mem e hx))

/-- A well-formed submit-transaction calldata for the witnesses:
selector, offset word 32, length word 3, then the 3 header bytes. -/
def wTxData : List Nat :=
  submitSelector ++ (List.replicate 31 0 ++ [32]) ++ (List.replicate 31 0 ++ [3]) ++
    [170, 187, 204]

def wChainTx : ChainTx :=
  { data := wTxData, isPending := false }

def wEvent : SubmitEvent :=
  { data := List.replicate 32 1, txHash := List.replicate 32 2 }

def wGetTx (h : List Nat) : Option ChainTx :=
  if h = List.replicate 32 2 then some wChainTx else none

set_option maxRecDepth 100000 in
/-- Witness for C4 at a concrete event log with one matching event. -/
theorem C4_locator_correct_witness :
    getRlpHeaderBySubmitEvent wGetTx ([] ++ wEvent :: []) (List.replicate 32 1) =
      .ok ((wTxData.drop (4 + 32 + 32)).take 3) ∧
    (∀ events : List SubmitEvent, (∀ e ∈ events, e.data ≠ List.replicate 32 1) →
      getRlpHeaderBySubmitEvent wGetTx events (List.replicate 32 1) =
        .noSubmissionError) :=
  C4_locator_correct wGetTx (List.replicate 32 1) [] [] wEvent wChainTx 32 3
    (by simp) rfl rfl rfl (by decide) (by decide) (by decide) (by decide) (by decide)
    (by decide) (by decide)

/-- C10 (amended): the calldata parsing panics on out-of-range slices,
but the selector comparison happens before the offset and length words
are read: a matching event's calldata shorter than 4 bytes panics; one
of length at least 4 with a wrong selector returns the typed
signature-mismatch error without panicking; with the correct selector,
calldata shorter than 36 bytes panics, as does an offset word (or
length word) designating a region extending past the end of the
calldata under wrap-around `uint64` arithmetic; all slice accesses are
in bounds only under the well-formed-calldata precondition (C4). -/
theorem C10_calldata_panic_behaviour
    (getTx : List Nat → Option ChainTx) (blockHash : List Nat)
    (rest : List SubmitEvent) (ev : SubmitEvent) (tx : ChainTx)
    (hmatch : ev.data = blockHash)
    (htx : getTx ev.txHash = some tx)
    (hpending : tx.isPending = false) :
    (tx.data.length < 4 →
      getRlpHeaderBySubmitEvent getTx (ev :: rest) blockHash = .panic) ∧
    (4 ≤ tx.data.length → tx.data.take 4 ≠ submitSelector →
      getRlpHeaderBySubmitEvent getTx (ev :: rest) blockHash =
        .signatureMismatchError) ∧
    (tx.data.take 4 = submitSelector → tx.data.length < 36 →
      getRlpHeaderBySubmitEvent getTx (ev :: rest) blockHash = .panic) ∧
    (tx.data.take 4 = submitSelector → 36 ≤ tx.data.length →
      (¬ (U64 (4 + U64 (beNat ((tx.data.drop 4).take 32))) ≤
            U64 (4 + U64 (beNat ((tx.data.drop 4).take 32)) + 32) ∧
          U64 (4 + U64 (beNat ((tx.data.drop 4).take 32)) + 32) ≤ tx.data.length)) →
      getRlpHeaderBySubmitEvent getTx (ev :: rest) blockHash = .panic) := by
  have hstep : ∀ res : LocatorResult,
      (match getTx ev.txHash with
        | none => LocatorResult.fetchError
        | some tx =>
          if tx.isPending = true then LocatorResult.pendingError
          else
            match goSlice tx.data 0 4 with
            | none => LocatorResult.panic
            | some methodId =>
              if methodId ≠ submitSelector then LocatorResult.signatureMismatchError
              else
                match goSlice tx.data 4 36 with
                | none => LocatorResult.panic
                | some posBytes =>
                  let position := U64 (beNat posBytes)
                  match goSlice tx.data (U64 (4 + position)) (U64 (4 + position + 32)) with
                  | none => LocatorResult.panic
                  | some lenBytes =>
                    let len := U64 (beNat lenBytes)
                    match goSlice tx.data (U64 (4 + position + 32))
                        (U64 (4 + position + 32 + len)) with
                    | none => LocatorResult.panic
                    | some rlpHeader => LocatorResult.ok rlpHeader) = res →
      getRlpHeaderBySubmitEvent getTx (ev :: rest) blockHash = res := by
    intro res hres
    rw [getRlpHeaderBySubmitEvent, if_pos hmatch]
    exact hres
  refine ⟨?_, ?_, ?_, ?_⟩
  · intro hshort
    apply hstep
    have hs : goSlice tx.data 0 4 = none := by
      rw [goSlice, if_neg (by omega)]
    simp only [htx, hpending, Bool.false_eq_true, if_false, hs]
  · intro hlen hsel
    apply hstep
    have hs : goSlice tx.data 0 4 = some (tx.data.take 4) := by
      rw [goSlice, if_pos ⟨by omega, by omega⟩]
      simp
    simp only [htx, hpending, Bool.false_eq_true, if_false, hs]
    rw [if_pos hsel]
  · intro hsel hshort
    apply hstep
    have hlen4 : 4 ≤ tx.data.length := by
      have hc := congrArg List.length hsel
      rw [List.length_take] at hc
      simp only [submitSelector, List.length_cons, List.length_nil] at hc
      omega
    have hs : goSlice tx.data 0 4 = some (tx.data.take 4) := by
      rw [goSlice, if_pos ⟨by omega, by omega⟩]
      simp
    have hs2 : goSlice tx.data 4 36 = none := by
      rw [goSlice, if_neg (by omega)]
    simp only [htx, hpending, Bool.false_eq_true, if_false, hs, hsel, ne_eq,
      not_true_eq_false, ite_false, hs2]
  · intro hsel hlen hoob
    apply hstep
    have hs : goSlice tx.data 0 4 = some (tx.data.take 4) := by
      rw [goSlice, if_pos ⟨by omega, by omega⟩]
      simp
    have hs2 : goSlice tx.data 4 36 = some ((tx.data.drop 4).take 32) := by
      rw [goSlice, if_pos ⟨by omega, by omega⟩]
    have hs3 : goSlice tx.data (U64 (4 + U64 (beNat ((tx.data.drop 4).take 32))))
        (U64 (4 + U64 (beNat ((tx.data.drop 4).take 32)) + 32)) = none := by
      rw [goSlice, if_neg hoob]
    simp only [htx, hpending, Bool.false_eq_true, if_false, hs, hsel, ne_eq,
      not_true_eq_false, ite_false, hs2, hs3]

/-- A matching event whose calldata is 8 bytes with a selector other
than `0xd5107381`. -/
def cTx10 : ChainTx :=
  { data := [1, 2, 3, 4, 5, 6, 7, 8], isPending := false }

def cGetTx10 (h : List Nat) : Option ChainTx :=
  if h = List.replicate 32 2 then some cTx10 else none

set_option maxRecDepth 100000 in
/-- Counterexample to C10 as stated: a matching event whose calldata is
shorter than 36 bytes does not necessarily panic — with a non-matching
selector the function returns the typed signature-mismatch error. -/
theorem C10_counterexample :
    cTx10.data.length < 36 ∧
    getRlpHeaderBySubmitEvent cGetTx10 [wEvent] (List.replicate 32 1) =
      .signatureMismatchError := by
  constructor
  · decide
  · decide

set_option maxRecDepth 100000 in
/-- Witness for C10 (amended): the same short wrong-selector calldata
takes the typed-error branch, and truncating the well-formed calldata
to 20 bytes (correct selector, truncated offset word) panics. -/
theorem C10_calldata_panic_behaviour_witness :
    getRlpHeaderBySubmitEvent cGetTx10 [wEvent] (List.replicate 32 1) =
      .signatureMismatchError :=
  (C10_calldata_panic_behaviour cGetTx10 (List.replicate 32 1) [] wEvent cTx10
    rfl rfl rfl).2.1 (by decide) (by decide)

/-! ## PoW dispute support

Embedding of `DisputeBlock`: recover the submitted header bytes via the
event-replay locator, decode them, re-encode without nonce/mixDigest,
hash with Keccak-256 (an external collaborator, passed as `keccak`),
copy the digest into a 32-byte array, derive the ethash block metadata
from `(Number.Uint64(), Nonce.Uint64(), preHash)` via the external
ethash collaborator (`ethashMeta`, returning the dataset-element and
witness arrays), recover the parent header bytes, and pass everything
to the dispute transaction.  Any failed step is `log.Fatal`. -/

inductive DisputeOutcome where
  | submitted (rlpHeader parentRlpHeader : List Nat)
      (dataSetLookup witnessForLookup : List Int) : DisputeOutcome
  | fatal : DisputeOutcome
deriving DecidableEq

/-- `copy(hash32[:], bs)` into a zeroed 32-byte array. -/
def copy32 (bs : List Nat) : List Nat :=
  bs.take 32 ++ List.replicate (32 - bs.length) 0

def disputeBlock (keccak : List Nat → List Nat)
    (ethashMeta : Nat → Nat → List Nat → List Int × List Int)
    (getTx : List Nat → Option ChainTx) (events : List SubmitEvent)
    (blockHash : List Nat) : DisputeOutcome :=
  match getRlpHeaderBySubmitEvent getTx events blockHash with
  | .ok rlpHeader =>
    match decodeHeaderFromRLP rlpHeader with
    | none => .fatal
    | some blockHeader =>
      let blockHeaderWithoutNonce := encodeHeaderWithoutNonceToRLP blockHeader
      let preHash := copy32 (keccak blockHeaderWithoutNonce)
      let meta := ethashMeta (U64 blockHeader.number) (beNat blockHeader.nonce) preHash
      match getRlpHeaderBySubmitEvent getTx events blockHeader.parentHash with
      | .ok parentRlpHeader => .submitted rlpHeader parentRlpHeader meta.1 meta.2
      | _ => .fatal
  | _ => .fatal

theorem copy32_of_length_32 {bs : List Nat} (h : bs.length = 32) : copy32 bs = bs := by
  rw [copy32, h]
  simp
  omega

/-- C6: for every disputed header, `DisputeBlock` computes the pre-PoW
hash as the Keccak-256 digest of the nonce-free encoding of the decoded
submitted header, invokes the PoW-dataset collaborator with exactly
(block number, nonce, that pre-PoW hash), and passes the resulting
dataset-element and witness arrays to the dispute transaction
unmodified. -/
theorem C6_disputeBlock_meta
    (keccak : List Nat → List Nat)
    (ethashMeta : Nat → Nat → List Nat → List Int × List Int)
    (getTx : List Nat → Option ChainTx) (events : List SubmitEvent)
    (blockHash rlpHeader parentRlpHeader : List Nat) (h : EthHeader)
    (hloc : getRlpHeaderBySubmitEvent getTx events blockHash = .ok rlpHeader)
    (hdec : decodeHeaderFromRLP rlpHeader = some h)
    (hk : (keccak (encodeHeaderWithoutNonceToRLP h)).length = 32)
    (hnum : h.number < 2 ^ 64)
    (hpar : getRlpHeaderBySubmitEvent getTx events h.parentHash = .ok parentRlpHeader) :
    disputeBlock keccak ethashMeta getTx events blockHash =
      .submitted rlpHeader parentRlpHeader
        (ethashMeta h.number (beNat h.nonce)
          (keccak (encodeHeaderWithoutNonceToRLP h))).1
        (ethashMeta h.number (beNat h.nonce)
          (keccak (encodeHeaderWithoutNonceToRLP h))).2 := by
  simp only [disputeBlock, hloc, hdec, copy32_of_length_32 hk, U64_eq_of_lt hnum, hpar]

/-- Calldata embedding a given dynamic byte-array parameter under the
submit selector (offset word 32, then the length word, then the bytes). -/
def submitCalldata (payload : List Nat) : List Nat :=
  submitSelector ++ (List.replicate 31 0 ++ [32]) ++
    (List.replicate (32 - (beBytes payload.length).length) 0 ++ beBytes payload.length) ++
    payload

/-- Toy ethash collaborator for the witness. -/
def toyMeta (n nonce : Nat) (pre : List Nat) : List Int × List Int :=
  ([(n : Int), (nonce : Int)], [(pre.length : Int)])

def dEventHeader : SubmitEvent :=
  { data := List.replicate 32 1, txHash := List.replicate 32 2 }

def dEventParent : SubmitEvent :=
  { data := List.replicate 32 0, txHash := List.replicate 32 5 }

def dGetTx (h : List Nat) : Option ChainTx :=
  if h = List.replicate 32 2 then
    some { data := submitCalldata (encodeHeaderToRLP sampleHeader), isPending := false }
  else if h = List.replicate 32 5 then
    some { data := submitCalldata [170], isPending := false }
  else none

set_option maxRecDepth 1000000 in
/-- Witness for C6 at a concrete event log: the submitted header is
`sampleHeader`'s encoding, the parent submission holds `[170]`. -/
theorem C6_disputeBlock_meta_witness :
    disputeBlock hash32 toyMeta dGetTx [dEventHeader, dEventParent]
      (List.replicate 32 1) =
      .submitted (encodeHeaderToRLP sampleHeader) [170]
        (toyMeta sampleHeader.number (beNat sampleHeader.nonce)
          (hash32 (encodeHeaderWithoutNonceToRLP sampleHeader))).1
        (toyMeta sampleHeader.number (beNat sampleHeader.nonce)
          (hash32 (encodeHeaderWithoutNonceToRLP sampleHeader))).2 :=
  C6_disputeBlock_meta hash32 toyMeta dGetTx [dEventHeader, dEventParent]
    (List.replicate 32 1) (encodeHeaderToRLP sampleHeader) [170] sampleHeader
    (by decide) (decodeHeader_encodeHeader sampleHeader (by decide))
    (hash32_length _) (by decide) (by decide)

/-! ## Transaction orchestrator: receipt await

Embedding of `awaitTxReceipt`: a background goroutine busy-polls
`TransactionReceipt` (discarding poll errors) and sends the first
non-nil receipt on a channel, racing `time.After(2 * time.Minute)`.
Wall-clock time is abstracted: `polls` is the sequence of poll results
observed before the two-minute deadline elapses; an exhausted list
means the deadline fired first. -/

/-- `const TimeoutLength = 2` (minutes). -/
def timeoutLength : Nat := 2

inductive AwaitResult where
  | received (r : Receipt) : AwaitResult
  | timeoutError (minutes : Nat) : AwaitResult
deriving DecidableEq

def awaitTxReceipt : List (Option Receipt) → AwaitResult
  | [] => .timeoutError timeoutLength
  | some r :: _ => .received r
  | none :: rest => awaitTxReceipt rest

/-- C8: if no receipt becomes available before the fixed two-minute
bound, `awaitTxReceipt` returns the timeout error and no other error
kind; if a receipt is observed before the bound it is returned with no
error.  (Every possible outcome is one of these two.) -/
theorem C8_awaitTxReceipt_timeout :
    (∀ polls : List (Option Receipt), (∀ p ∈ polls, p = none) →
      awaitTxReceipt polls = .timeoutError 2) ∧
    (∀ (pre post : List (Option Receipt)) (r : Receipt), (∀ p ∈ pre, p = none) →
      awaitTxReceipt (pre ++ some r :: post) = .received r) ∧
    (∀ polls : List (Option Receipt),
      (∃ r, awaitTxReceipt polls = .received r) ∨
        awaitTxReceipt polls = .timeoutError 2) := by
  refine ⟨?_, ?_, ?_⟩
  · intro polls hall
    induction polls with
    | nil =>
      rw [awaitTxReceipt, timeoutLength]
    | cons p rest ih =>
      have hp := hall p (List.mem_cons_self p rest)
      subst hp
      rw [awaitTxReceipt]
      exact ih (fun x hx => hall x (List.mem_cons_of_mem _ hx))
  · intro pre post r hall
    induction pre with
    | nil =>
      rw [List.nil_append, awaitTxReceipt]
    | cons p rest ih =>
      have hp := hall p (List.mem_cons_self p rest)
      subst hp
      rw [List.cons_append, awaitTxReceipt]
      exact ih (fun x hx => hall x (List.mem_cons_of_mem _ hx))
  · intro polls
    induction polls with
    | nil =>
      right
      rw [awaitTxReceipt, timeoutLength]
    | cons p rest ih =>
      match p with
      | some r =>
        left
        exact ⟨r, by rw [awaitTxReceipt]⟩
      | none =>
        rw [awaitTxReceipt]
        exact ih

/-- Witness for C8: all-nil polls time out; an eventual receipt is
returned. -/
theorem C8_awaitTxReceipt_timeout_witness :
    awaitTxReceipt [none, none, none] = .timeoutError 2 ∧
    awaitTxReceipt [none, some r7, none] = .received r7 :=
  ⟨C8_awaitTxReceipt_timeout.1 [none, none, none] (by decide),
   C8_awaitTxReceipt_timeout.2.1 [none] [none] r7 (by decide)⟩

/-! ## Epoch-data submission

Embedding of `SetEpochData`: walk the epoch's Merkle nodes, accumulate
batches of 40 (the final batch may be shorter), and submit each batch
via `ethashContract.SetEpochData(epoch, fullSize, branchDepth, nodes,
start, mnlen)` — except that a batch is skipped (with the running
start offset still advancing) when the epoch value (`Epoch.Uint64()`)
is 128 and the batch's ending node index `k` is below 440.  The model
collects the submitted call tuples, assuming every transaction
succeeds. -/

/-- One `SetEpochData` contract call:
(epoch, fullSize, branchDepth, nodes, start, mnlen). -/
def EpochCall := Nat × Nat × Nat × List Int × Nat × Nat

def setEpochDataAux (epoch fullSize branchDepth total : Nat) :
    List Int → Nat → List Int → Nat → List EpochCall
  | [], _, _, _ => []
  | n :: rest, k, nodes, start =>
    let nodes1 := nodes ++ [n]
    if nodes1.length = 40 ∨ k = total - 1 then
      let mnlen := nodes1.length
      if k < 440 ∧ epoch = 128 then
        setEpochDataAux epoch fullSize branchDepth total rest (k + 1) [] (start + mnlen)
      else
        (epoch, fullSize, branchDepth, nodes1, start, mnlen) ::
          setEpochDataAux epoch fullSize branchDepth total rest (k + 1) [] (start + mnlen)
    else
      setEpochDataAux epoch fullSize branchDepth total rest (k + 1) nodes1 start

/-- `SetEpochData` (with `epoch` standing for `Epoch.Uint64()`). -/
def setEpochData (epoch fullSize branchDepth : Nat) (merkleNodes : List Int) :
    List EpochCall :=
  setEpochDataAux epoch fullSize branchDepth merkleNodes.length merkleNodes 0 [] 0

/-- Chunking into batches of 40 (fuel-structural). -/
def chunksAux : Nat → List Int → List (List Int)
  | _, [] => []
  | 0, _ :: _ => []
  | fuel + 1, n :: rest => ((n :: rest).take 40) :: chunksAux fuel ((n :: rest).drop 40)

def chunks40 (l : List Int) : List (List Int) :=
  chunksAux l.length l

/-- The spec-side submission sequence: walk the batches in order; a
batch is skipped exactly when the epoch is 128 and its ending node
index is below 440; the start offset advances by the batch length
whether or not the batch is submitted. -/
def refSubmissions (epoch fullSize branchDepth : Nat) :
    List (List Int) → Nat → List EpochCall
  | [], _ => []
  | c :: cs, start =>
    let tail := refSubmissions epoch fullSize branchDepth cs (start + c.length)
    if epoch = 128 ∧ start + c.length - 1 < 440 then tail
    else (epoch, fullSize, branchDepth, c, start, c.length) :: tail

theorem chunksAux_fuel : ∀ (n : Nat) (l : List Int), l.length ≤ n →
    ∀ (f1 f2 : Nat), l.length ≤ f1 → l.length ≤ f2 →
    chunksAux f1 l = chunksAux f2 l := by
  intro n
  induction n with
  | zero =>
    intro l hl f1 f2 _ _
    have : l = [] := List.length_eq_zero.mp (by omega)
    subst this
    rw [chunksAux, chunksAux]
  | succ m ih =>
    intro l hl f1 f2 h1 h2
    match l with
    | [] => rw [chunksAux, chunksAux]
    | x :: rest =>
      simp only [List.length_cons] at hl h1 h2
      obtain ⟨g1, rfl⟩ : ∃ g1, f1 = g1 + 1 := ⟨f1 - 1, by omega⟩
      obtain ⟨g2, rfl⟩ : ∃ g2, f2 = g2 + 1 := ⟨f2 - 1, by omega⟩
      rw [chunksAux, chunksAux]
      congr 1
      apply ih ((x :: rest).drop 40)
      · simp only [List.length_drop, List.length_cons]
        omega
      · simp only [List.length_drop, List.length_cons]
        omega
      · simp only [List.length_drop, List.length_cons]
        omega

theorem chunks40_cons (x : Int) (rest : List Int) :
    chunks40 (x :: rest) = ((x :: rest).take 40) :: chunks40 ((x :: rest).drop 40) := by
  rw [chunks40, chunks40]
  simp only [List.length_cons]
  rw [chunksAux]
  congr 1
  apply chunksAux_fuel ((x :: rest).drop 40).length _ (le_refl _)
  · simp only [List.length_drop, List.length_cons]
    omega
  · exact le_refl _

theorem chunks40_nil : chunks40 [] = [] := by
  rw [chunks40, chunksAux]

/-- Each batch holds at most 40 nodes. -/
theorem chunks40_le_40 : ∀ (n : Nat) (l : List Int), l.length ≤ n →
    ∀ c ∈ chunks40 l, c.length ≤ 40 := by
  intro n
  induction n with
  | zero =>
    intro l hl c hc
    have : l = [] := List.length_eq_zero.mp (by omega)
    subst this
    rw [chunks40_nil] at hc
    cases hc
  | succ m ih =>
    intro l hl c hc
    match l with
    | [] =>
      rw [chunks40_nil] at hc
      cases hc
    | x :: rest =>
      rw [chunks40_cons] at hc
      rcases List.mem_cons.mp hc with hc | hc
      · subst hc
        simp only [List.length_take]
        omega
      · apply ih ((x :: rest).drop 40) _ c hc
        simp only [List.length_drop, List.length_cons]
        simp only [List.length_cons] at hl
        omega

theorem setEpochDataAux_spec (epoch fullSize branchDepth : Nat) :
    ∀ (n : Nat) (rest nodes : List Int) (start : Nat), rest.length ≤ n →
    nodes.length < 40 → (nodes ≠ [] → rest ≠ []) →
    setEpochDataAux epoch fullSize branchDepth
        (start + nodes.length + rest.length) rest (start + nodes.length) nodes start =
      refSubmissions epoch fullSize branchDepth (chunks40 (nodes ++ rest)) start := by
  intro n
  induction n with
  | zero =>
    intro rest nodes start hn hlt hne
    have : rest = [] := List.length_eq_zero.mp (by omega)
    subst this
    have hnil : nodes = [] := by
      by_cases h : nodes = []
      · exact h
      · exact absurd rfl (hne h)
    subst hnil
    rw [setEpochDataAux, List.append_nil, chunks40_nil, refSubmissions]
  | succ m ih =>
    intro rest nodes start hn hlt hne
    match rest with
    | [] =>
      have hnil : nodes = [] := by
        by_cases h : nodes = []
        · exact h
        · exact absurd rfl (hne h)
      subst hnil
      rw [setEpochDataAux, List.append_nil, chunks40_nil, refSubmissions]
    | x :: rest1 =>
      simp only [List.length_cons] at hn
      rw [setEpochDataAux]
      simp only [List.length_cons]
      by_cases hb : (nodes ++ [x]).length = 40 ∨
          start + nodes.length = start + nodes.length + (rest1.length + 1) - 1
      · rw [if_pos hb]
        have hlast : (nodes ++ [x]).length = 40 ∨ rest1 = [] := by
          rcases hb with hb | hb
          · exact Or.inl hb
          · right
            have : rest1.length = 0 := by omega
            exact List.length_eq_zero.mp this
        have hchunk : chunks40 (nodes ++ x :: rest1) =
            (nodes ++ [x]) :: chunks40 rest1 := by
          have hts : nodes ++ x :: rest1 = (nodes ++ [x]) ++ rest1 := by
            simp
          rcases List.exists_cons_of_ne_nil
            (show nodes ++ x :: rest1 ≠ [] by simp) with ⟨y, ys, hy⟩
          rw [hy, chunks40_cons, ← hy, hts]
          rcases hlast with h40 | hnilr
          · rw [List.take_left' h40, List.drop_left' h40]
          · subst hnilr
            rw [List.append_nil]
            have hle : (nodes ++ [x]).length ≤ 40 := by
              simp only [List.length_append, List.length_cons, List.length_nil]
              omega
            rw [List.take_of_length_le hle, List.drop_of_length_le hle, chunks40_nil]
        rw [hchunk, refSubmissions]
        have hrec : setEpochDataAux epoch fullSize branchDepth
            (start + nodes.length + (rest1.length + 1)) rest1
            (start + nodes.length + 1) [] (start + (nodes ++ [x]).length) =
            refSubmissions epoch fullSize branchDepth (chunks40 rest1)
              (start + (nodes ++ [x]).length) := by
          have harg1 : start + nodes.length + (rest1.length + 1) =
              (start + (nodes ++ [x]).length) + 0 + rest1.length := by
            simp only [List.length_append, List.length_cons, List.length_nil]
            omega
          have harg2 : start + nodes.length + 1 =
              (start + (nodes ++ [x]).length) + 0 := by
            simp only [List.length_append, List.length_cons, List.length_nil]
            omega
          rw [harg1, harg2]
          have := ih rest1 [] (start + (nodes ++ [x]).length) (by omega) (by simp)
            (by intro hcon; exact absurd rfl hcon)
          simpa using this
        have hcond : (start + nodes.length < 440 ∧ epoch = 128) ↔
            (epoch = 128 ∧ start + (nodes ++ [x]).length - 1 < 440) := by
          simp only [List.length_append, List.length_cons, List.length_nil]
          constructor
          · rintro ⟨h1, h2⟩
            exact ⟨h2, by omega⟩
          · rintro ⟨h1, h2⟩
            exact ⟨by omega, h1⟩
        by_cases hskip : start + nodes.length < 440 ∧ epoch = 128
        · rw [if_pos hskip, if_pos (hcond.mp hskip), hrec]
        · rw [if_neg hskip, if_neg (fun hc => hskip (hcond.mpr hc)), hrec]
      · rw [if_neg hb]
        have h40 : (nodes ++ [x]).length < 40 := by
          simp only [List.length_append, List.length_cons, List.length_nil] at hb ⊢
          push_neg at hb
          omega
        have hne1 : rest1 ≠ [] := by
          intro hcon
          subst hcon
          push_neg at hb
          exact hb.2 (by simp)
        have harg1 : start + nodes.length + (rest1.length + 1) =
            start + (nodes ++ [x]).length + rest1.length := by
          simp only [List.length_append, List.length_cons, List.length_nil]
          omega
        have harg2 : start + nodes.length + 1 = start + (nodes ++ [x]).length := by
          simp only [List.length_append, List.length_cons, List.length_nil]
          omega
        rw [harg1, harg2]
        have := ih rest1 (nodes ++ [x]) start (by omega) h40 (fun _ => hne1)
        rw [this]
        have : nodes ++ x :: rest1 = (nodes ++ [x]) ++ rest1 := by simp
        rw [this]

/-- C9: a batch of Merkle nodes is skipped exactly when the epoch is
128 and the batch's ending node index is below 440; every skipped
batch still advances the running start offset by its length, so later
batches are submitted at the offsets they would have had anyway; all
other batches are submitted, and every batch holds at most 40 nodes.
(`setEpochData` equals the reference submission sequence.) -/
theorem C9_setEpochData_skip_logic (epoch fullSize branchDepth : Nat)
    (merkleNodes : List Int) :
    setEpochData epoch fullSize branchDepth merkleNodes =
      refSubmissions epoch fullSize branchDepth (chunks40 merkleNodes) 0 ∧
    ∀ c ∈ chunks40 merkleNodes, c.length ≤ 40 := by
  constructor
  · rw [setEpochData]
    have := setEpochDataAux_spec epoch fullSize branchDepth merkleNodes.length
      merkleNodes [] 0 (le_refl _) (by simp) (by intro hcon; exact absurd rfl hcon)
    simpa using this
  · exact chunks40_le_40 merkleNodes.length merkleNodes (le_refl _)

end Ethrelay
